import Mathlib

/-!
Verification development for the `expiry-map` repository: a TTL ("time to
live") membership set with four interchangeable backends, built around a
self-indexing mutable binary heap (`MutHeap` in `src/heap.rs`) whose inserted
items are addressed through externally held handles.

The embedding below is a direct shallow model of the Rust sources:

* `Instant` and `Duration` are modelled as `Nat` (milliseconds); `Instant`
  arithmetic in the code is only `+` and comparisons.
* `Rc<Cell<usize>>` position cells are modelled by a table
  `cells : Nat → Option Nat` mapping a handle identifier to the cell's
  current contents; `none` models a dropped `Rc` (so a `Weak::upgrade`
  failure).  A `Handle` is just the identifier (a weak reference).
* The `Vec<Wrapper<T>>` backing store is modelled as `size : Nat` together
  with `arr : Nat → Option (T × Nat)`; entries at indices `≥ size` are junk
  that the code never reads (every access is guarded by a bounds check,
  mirroring the panicking index operator of `Vec`).
* The `while` loops (`percolate_up`, `percolate_down`, and the cleanup loops)
  are modelled with explicit fuel; the public operations run them with a
  fuel that provably suffices (the termination claims below show this).
* Panics (`expect` on a dead handle, out-of-bounds indexing, `expect` in
  `TreeCleanup::insert`) are modelled by `Except`/`Option` error results.
-/

/-- Pointwise update of a function-backed table (a `HashMap`/cell write). -/
def upd {α : Type} (f : Nat → Option α) (i : Nat) (v : α) : Nat → Option α :=
  fun j => if j = i then some v else f j

/-- Pointwise removal from a function-backed table (a `HashMap::remove`). -/
def tdel {α : Type} (f : Nat → Option α) (i : Nat) : Nat → Option α :=
  fun j => if j = i then none else f j

/-- `Vec::swap i j`: exchange the entries at two indices. -/
def swap2 {α : Type} (f : Nat → Option α) (i j : Nat) : Nat → Option α :=
  fun k => if k = i then f j else if k = j then f i else f k

/-- The state of `MutHeap<T>` from `src/heap.rs`.  Each element of the vector
is a `Wrapper { item, handle }`; the wrapper's `Rc<Cell<usize>>` is identified
by a `Nat` tag (second component), and `cells` gives each live cell's current
contents.  `next` is the supply of fresh tags. -/
structure MutHeap (T : Type) where
  size : Nat
  arr : Nat → Option (T × Nat)
  cells : Nat → Option Nat
  next : Nat

/-- The two panics an operation on the heap can raise: `expect("handle not
present in heap")` on a dead weak reference, and `Vec` index out of bounds. -/
inductive HErr where
  | stale
  | oob
deriving DecidableEq

namespace MutHeap

/-- The empty heap (`MutHeap::default()`). -/
def empty (T : Type) : MutHeap T := ⟨0, fun _ => none, fun _ => none, 0⟩

/-- One fueled run of the `percolate_up` loop of `src/heap.rs` lines 61-75:
while `idx > 0`, compare the item with its parent at `idx / 2`; on a
violation, update both position cells and swap, continuing from the parent. -/
def percolate_up (lt : T → T → Bool) : Nat → MutHeap T → Nat → MutHeap T
  | 0, s, _ => s
  | fuel + 1, s, idx =>
    if idx = 0 then s
    else
      match s.arr idx, s.arr (idx / 2) with
      | some child, some parent =>
        if lt parent.1 child.1 then
          percolate_up lt fuel
            { s with
              arr := swap2 s.arr idx (idx / 2)
              cells := upd (upd s.cells child.2 (idx / 2)) parent.2 idx }
            (idx / 2)
        else s
      | _, _ => s

/-- Second half of the `highest` selection of the `percolate_down` loop body:
elect child `2 * idx + 1` whenever it is in range and compares strictly
greater than the current electee `c1`. -/
def pickChild2 (lt : T → T → Bool) (s : MutHeap T) (idx : Nat)
    (c1 : Nat × (T × Nat)) : Nat × (T × Nat) :=
  if 2 * idx + 1 < s.size then
    match s.arr (2 * idx + 1) with
    | some b => if lt c1.2.1 b.1 then (2 * idx + 1, b) else c1
    | none => c1
  else c1

/-- The `highest` selection of the `percolate_down` loop body (`src/heap.rs`
lines 78-86): starting from the slot itself, elect child `2 * idx` and then
child `2 * idx + 1` whenever it compares strictly greater than the current
electee. -/
def pickChild (lt : T → T → Bool) (s : MutHeap T) (idx : Nat) (cur : T × Nat) :
    Nat × (T × Nat) :=
  pickChild2 lt s idx
    (match s.arr (2 * idx) with
     | some a => if lt cur.1 a.1 then (2 * idx, a) else (idx, cur)
     | none => (idx, cur))

/-- One fueled run of the `percolate_down` loop of `src/heap.rs` lines 76-95:
while `2 * idx < len`, find the largest among the slot and its children
`2 * idx` and `2 * idx + 1`; on a violation, update both cells and swap,
continuing from the child. -/
def percolate_down (lt : T → T → Bool) : Nat → MutHeap T → Nat → MutHeap T
  | 0, s, _ => s
  | fuel + 1, s, idx =>
    if 2 * idx < s.size then
      match s.arr idx with
      | some cur =>
        let c2 := pickChild lt s idx cur
        if c2.1 = idx then s
        else
          percolate_down lt fuel
            { s with
              arr := swap2 s.arr idx c2.1
              cells := upd (upd s.cells cur.2 c2.1) c2.2.2 idx }
            c2.1
      | none => s
    else s

/-- `percolate_up` with enough fuel for its worst case (the claim
`C9` below proves that this fuel always suffices). -/
def pUp (lt : T → T → Bool) (s : MutHeap T) (idx : Nat) : MutHeap T :=
  percolate_up lt (idx + 1) s idx

/-- `percolate_down` with enough fuel for its worst case. -/
def pDown (lt : T → T → Bool) (s : MutHeap T) (idx : Nat) : MutHeap T :=
  percolate_down lt (s.size + 1) s idx

/-- `MutHeap::insert`: append the item at the end with a fresh position cell,
percolate it up, and hand back the (weak) handle. -/
def insert (lt : T → T → Bool) (s : MutHeap T) (item : T) : Nat × MutHeap T :=
  (s.next,
    pUp lt
      { size := s.size + 1
        arr := upd s.arr s.size (item, s.next)
        cells := upd s.cells s.next s.size
        next := s.next + 1 }
      s.size)

/-- `MutHeap::pop_max`: pop the last wrapper; if the heap is still nonempty,
swap it into the root slot and percolate down.  The popped wrapper's `Rc`
cell is dropped (removed from `cells`), which is what invalidates its
outstanding handle.  Note, faithfully to the source, that the relocated
wrapper's cell is *not* rewritten here; only swaps inside `percolate_down`
rewrite cells. -/
def pop_max (lt : T → T → Bool) (s : MutHeap T) : Option (T × MutHeap T) :=
  if s.size = 0 then none
  else
    match s.arr (s.size - 1) with
    | none => none
    | some last =>
      if s.size - 1 = 0 then
        some (last.1, { s with size := 0, cells := tdel s.cells last.2 })
      else
        match s.arr 0 with
        | none => none
        | some root =>
          some (root.1,
            pDown lt
              { s with
                size := s.size - 1
                arr := upd s.arr 0 last
                cells := tdel s.cells root.2 }
              0)

/-- `MutHeap::peek_max`: the root item, if any. -/
def peek_max (s : MutHeap T) : Option T :=
  if s.size = 0 then none else (s.arr 0).map (fun w => w.1)

/-- `MutHeap::increment`: resolve the handle's cell (panicking with the
`stale` error if the weak reference is dead), mutate the item at the cell's
recorded index (panicking `oob` if that index is out of bounds, as `Vec`
indexing would), then percolate up. -/
def increment (lt : T → T → Bool) (s : MutHeap T) (h : Nat) (f : T → T) :
    Except HErr (MutHeap T) :=
  match s.cells h with
  | none => .error .stale
  | some idx =>
    if idx < s.size then
      match s.arr idx with
      | some w => .ok (pUp lt { s with arr := upd s.arr idx (f w.1, w.2) } idx)
      | none => .error .oob
    else .error .oob

/-- `MutHeap::decrement`: like `increment` but percolating down. -/
def decrement (lt : T → T → Bool) (s : MutHeap T) (h : Nat) (f : T → T) :
    Except HErr (MutHeap T) :=
  match s.cells h with
  | none => .error .stale
  | some idx =>
    if idx < s.size then
      match s.arr idx with
      | some w => .ok (pDown lt { s with arr := upd s.arr idx (f w.1, w.2) } idx)
      | none => .error .oob
    else .error .oob

end MutHeap

/-! ## Expiry records and the four TTL-set strategies

`Instant` is a `Nat` (milliseconds); `Duration` likewise.  Each strategy's
`clock: C` field is externalised: every operation takes the `Instant` that
`self.clock.now()` returned, and the `FakeClock` (with its auto-advance
quantum) is modelled separately and threaded by the sequence runners. -/

/-- The `Expiration` record of `src/mut_heap_cleanup.rs` / `src/heap_cleanup.rs`. -/
structure Expiration where
  time : Nat
  item : Nat
deriving DecidableEq

/-- The `Ord` instance on `Expiration`: comparison on `time`, reversed, so
that the record expiring soonest is the max-heap's greatest element.
`expLt a b` models `a < b`. -/
def expLt (a b : Expiration) : Bool := decide (b.time < a.time)

/-- State of `HeapCleanup` from `src/mut_heap_cleanup.rs`:
a `MutHeap` of expiry records plus a hash map from item to its handle. -/
structure HeapCleanup where
  expiration_index : MutHeap Expiration
  expiration_times : Nat → Option Nat

namespace HeapCleanup

def empty : HeapCleanup := ⟨MutHeap.empty Expiration, fun _ => none⟩

/-- Fueled loop of `HeapCleanup::incremental_clean` (mut-heap variant):
while the root record has `time ≤ threshold`, remove its item from the hash
map and pop it. -/
def cleanLoop : Nat → HeapCleanup → Nat → HeapCleanup
  | 0, st, _ => st
  | fuel + 1, st, threshold =>
    match st.expiration_index.peek_max with
    | some exp =>
      if exp.time ≤ threshold then
        let times2 := tdel st.expiration_times exp.item
        match MutHeap.pop_max expLt st.expiration_index with
        | some r => cleanLoop fuel ⟨r.2, times2⟩ threshold
        | none => ⟨st.expiration_index, times2⟩
      else st
    | none => st

/-- `HeapCleanup::incremental_clean` with provably sufficient fuel. -/
def incremental_clean (st : HeapCleanup) (threshold : Nat) : HeapCleanup :=
  cleanLoop (st.expiration_index.size + 1) st threshold

/-- `HeapCleanup::insert` (mut-heap variant): on an existing entry, run
`decrement` with a mutator lowering the time if the new expiry is earlier,
then `increment` with a mutator raising it if the new expiry is later;
otherwise push a fresh record and store its handle. -/
def insert (st : HeapCleanup) (now item dur : Nat) : Except HErr HeapCleanup :=
  let time := now + dur
  match st.expiration_times item with
  | some h =>
    match MutHeap.decrement expLt st.expiration_index h
        (fun x => if time < x.time then { x with time := time } else x) with
    | .error e => .error e
    | .ok h1 =>
      match MutHeap.increment expLt h1 h
          (fun x => if x.time < time then { x with time := time } else x) with
      | .error e => .error e
      | .ok h2 => .ok { st with expiration_index := h2 }
  | none =>
    let r := MutHeap.insert expLt st.expiration_index ⟨time, item⟩
    .ok ⟨r.2, upd st.expiration_times item r.1⟩

/-- `HeapCleanup::contains` (mut-heap variant): clean up to `now`, then a
hash lookup. -/
def contains (st : HeapCleanup) (now item : Nat) : Bool × HeapCleanup :=
  let st2 := st.incremental_clean now
  ((st2.expiration_times item).isSome, st2)

end HeapCleanup

/-- Association-list lookup, modelling `BTreeMap` lookup (keys are `Nat`). -/
def alookup {α : Type} : List (Nat × α) → Nat → Option α
  | [], _ => none
  | p :: rest, k => if p.1 = k then some p.2 else alookup rest k

/-- `BTreeMap::remove`. -/
def aremove {α : Type} (l : List (Nat × α)) (k : Nat) : List (Nat × α) :=
  l.filter (fun p => decide (p.1 ≠ k))

/-- `BTreeMap::insert` (replace any existing binding). -/
def ainsert {α : Type} (l : List (Nat × α)) (k : Nat) (v : α) : List (Nat × α) :=
  (k, v) :: aremove l k

/-- `expiration_index.entry(e).or_insert_with(HashSet::new).insert(item)`:
add `item` to the bucket at key `e`, creating the bucket if absent. -/
def bucketAdd (index : List (Nat × List Nat)) (e item : Nat) : List (Nat × List Nat) :=
  match alookup index e with
  | some b => ainsert index e (if item ∈ b then b else item :: b)
  | none => ainsert index e [item]

/-- State of `TreeCleanup` from `src/tree_cleanup.rs`: a hash map from item
to its expiry and an ordered map from expiry to the bucket of items expiring
at that instant. -/
structure TreeCleanup where
  expiration_times : Nat → Option Nat
  expiration_index : List (Nat × List Nat)

namespace TreeCleanup

def empty : TreeCleanup := ⟨fun _ => none, []⟩

/-- `TreeCleanup::incremental_clean`: `split_off(&threshold)` keeps every
bucket with key `≥ threshold` in the index (note: the bucket at exactly
`threshold` is kept), and every item of a bucket with key `< threshold`
is removed from the hash map. -/
def incremental_clean (st : TreeCleanup) (threshold : Nat) : TreeCleanup :=
  let expiredIds :=
    (st.expiration_index.filter (fun p => decide (p.1 < threshold))).foldr
      (fun p acc => p.2 ++ acc) []
  ⟨fun id => if id ∈ expiredIds then none else st.expiration_times id,
    st.expiration_index.filter (fun p => decide (¬ p.1 < threshold))⟩

/-- `TreeCleanup::insert`: record the new expiry in the hash map; if there
was a previous expiry, detach the item from its old bucket (the
`expect("the previous entry must have had an expiration time registered")`
panic is modelled by `none`), deleting the bucket if it became empty; then
add the item to the bucket of its new expiry. -/
def insert (st : TreeCleanup) (now item dur : Nat) : Option TreeCleanup :=
  let expiry := now + dur
  let times2 := upd st.expiration_times item expiry
  match st.expiration_times item with
  | some prev =>
    match alookup st.expiration_index prev with
    | none => none
    | some bucket =>
      let bucket2 := bucket.filter (fun x => decide (x ≠ item))
      let index1 :=
        if bucket2.isEmpty then aremove st.expiration_index prev
        else ainsert st.expiration_index prev bucket2
      some ⟨times2, bucketAdd index1 expiry item⟩
  | none => some ⟨times2, bucketAdd st.expiration_index expiry item⟩

/-- `TreeCleanup::contains`: clean up to `now`, then a hash lookup. -/
def contains (st : TreeCleanup) (now item : Nat) : Bool × TreeCleanup :=
  let st2 := st.incremental_clean now
  ((st2.expiration_times item).isSome, st2)

end TreeCleanup

/-- State of the `BinaryHeap`-backed `HeapCleanup` from `src/heap_cleanup.rs`.
Its `insert` just pushes a new record onto the heap (a multiset here; the
claims below only need its contents, not its pop order) while overwriting
the hash map. -/
structure HeapCleanupBinary where
  expiration_times : Nat → Option Nat
  expiration_index : List Expiration

namespace HeapCleanupBinary

def empty : HeapCleanupBinary := ⟨fun _ => none, []⟩

/-- `HeapCleanup::insert` (`BinaryHeap` variant): overwrite the hash map and
push a fresh record; the superseded record is left in the heap. -/
def insert (st : HeapCleanupBinary) (now item dur : Nat) : HeapCleanupBinary :=
  ⟨upd st.expiration_times item (now + dur), ⟨now + dur, item⟩ :: st.expiration_index⟩

end HeapCleanupBinary

/-- State of `Redactor` from `src/redactor.rs`. -/
structure Redactor where
  expiration_times : Nat → Option Nat

namespace Redactor

def empty : Redactor := ⟨fun _ => none⟩

/-- `Redactor::insert`. -/
def insert (st : Redactor) (now item dur : Nat) : Redactor :=
  ⟨upd st.expiration_times item (now + dur)⟩

/-- `Redactor::contains`: lazily compare the stored expiry with `now`. -/
def contains (st : Redactor) (now key : Nat) : Bool :=
  match st.expiration_times key with
  | some e => decide (now < e)
  | none => false

end Redactor

/-- The `FakeClock` of `src/fake_clock.rs`: every `now()` read first bumps
the cursor by the auto-advance quantum (1 ms by default) and returns the new
cursor; `advance` bumps it by an explicit duration.  The arbitrary
`Instant::now()` origin is taken as 0. -/
structure FakeClock where
  cur : Nat
  auto_advance : Nat

namespace FakeClock

def start : FakeClock := ⟨0, 1⟩

def now (c : FakeClock) : Nat × FakeClock :=
  (c.cur + c.auto_advance, ⟨c.cur + c.auto_advance, c.auto_advance⟩)

def advance (c : FakeClock) (d : Nat) : FakeClock :=
  ⟨c.cur + d, c.auto_advance⟩

end FakeClock

/-- A step of a `TtlSet` usage trace: an insert, an explicit clock advance,
or a `contains` query. -/
inductive SOp where
  | ins (item dur : Nat)
  | adv (d : Nat)
  | qry (item : Nat)

/-- Run a trace against the mut-heap-backed strategy, collecting the
`contains` answers; `none` if some operation panicked. -/
def runHeapCleanup : FakeClock → HeapCleanup → List SOp → Option (List Bool)
  | _, _, [] => some []
  | c, st, .ins item dur :: rest =>
    let r := c.now
    match st.insert r.1 item dur with
    | .ok st2 => runHeapCleanup r.2 st2 rest
    | .error _ => none
  | c, st, .adv d :: rest => runHeapCleanup (c.advance d) st rest
  | c, st, .qry item :: rest =>
    let r := c.now
    let q := st.contains r.1 item
    (runHeapCleanup r.2 q.2 rest).map (fun out => q.1 :: out)

/-- Run a trace against the ordered-map-backed strategy. -/
def runTreeCleanup : FakeClock → TreeCleanup → List SOp → Option (List Bool)
  | _, _, [] => some []
  | c, st, .ins item dur :: rest =>
    let r := c.now
    match st.insert r.1 item dur with
    | some st2 => runTreeCleanup r.2 st2 rest
    | none => none
  | c, st, .adv d :: rest => runTreeCleanup (c.advance d) st rest
  | c, st, .qry item :: rest =>
    let r := c.now
    let q := st.contains r.1 item
    (runTreeCleanup r.2 q.2 rest).map (fun out => q.1 :: out)

/-- Run a trace against the redaction-only strategy (never panics). -/
def runRedactor : FakeClock → Redactor → List SOp → List Bool
  | _, _, [] => []
  | c, st, .ins item dur :: rest =>
    let r := c.now
    runRedactor r.2 (st.insert r.1 item dur) rest
  | c, st, .adv d :: rest => runRedactor (c.advance d) st rest
  | c, st, .qry item :: rest =>
    let r := c.now
    st.contains r.1 item :: runRedactor r.2 st rest

/-- A step of a raw `MutHeap` usage trace for the handle/ordering claims:
handles are referenced by their identifier. -/
inductive HOp (T : Type) where
  | ins (v : T)
  | pop
  | inc (h : Nat) (f : T → T)
  | dec (h : Nat) (f : T → T)

/-- Run a heap trace; `none` if an `increment`/`decrement` panicked
(`pop_max` on an empty heap just returns `None` and continues). -/
def runH (lt : T → T → Bool) : MutHeap T → List (HOp T) → Option (MutHeap T)
  | s, [] => some s
  | s, .ins v :: rest => runH lt (MutHeap.insert lt s v).2 rest
  | s, .pop :: rest =>
    match MutHeap.pop_max lt s with
    | some r => runH lt r.2 rest
    | none => runH lt s rest
  | s, .inc h f :: rest =>
    match MutHeap.increment lt s h f with
    | .ok s2 => runH lt s2 rest
    | .error _ => none
  | s, .dec h f :: rest =>
    match MutHeap.decrement lt s h f with
    | .ok s2 => runH lt s2 rest
    | .error _ => none

/-! ## Heap invariants

The slot array forms a tree in which the parent of slot `i > 0` is `i / 2`
(the code uses `idx / 2` and children `2 * idx`, `2 * idx + 1`; slot `0` has
the single child `1`, because `2 * 0` coincides with `0` itself and the
strict comparison never elects it).  `heapProp` is the max-heap property for
this tree. -/

namespace MutHeap

/-- Every slot below `size` is populated. -/
def arrSome (s : MutHeap T) : Prop := ∀ i, i < s.size → (s.arr i).isSome

/-- Max-heap property for the parent relation `i ↦ i / 2`. -/
def heapProp [LinearOrder T] (s : MutHeap T) : Prop :=
  ∀ i a b, 0 < i → i < s.size → s.arr i = some a → s.arr (i / 2) = some b →
    a.1 ≤ b.1

/-- The state transformation performed by one swap inside either percolate
loop: both position cells are rewritten, then the two array slots swapped. -/
def swapStep (s : MutHeap T) (i j : Nat) (wi wj : T × Nat) : MutHeap T :=
  { s with
    arr := swap2 s.arr i j
    cells := upd (upd s.cells wi.2 j) wj.2 i }

/-- Heap property weakened for a `percolate_up` run: the edge from `idx` to
its parent may be violated, and the children of `idx` are additionally
bounded by the value at `idx`'s parent. -/
def QUp [LinearOrder T] (s : MutHeap T) (idx : Nat) : Prop :=
  (∀ i a b, 0 < i → i < s.size → i ≠ idx → s.arr i = some a →
      s.arr (i / 2) = some b → a.1 ≤ b.1) ∧
  (0 < idx → ∀ c a b, c / 2 = idx → 0 < c → c < s.size → s.arr c = some a →
      s.arr (idx / 2) = some b → a.1 ≤ b.1)

/-- Heap property weakened for a `percolate_down` run: the edges from the
children of `idx` into `idx` may be violated, and the children of `idx` are
additionally bounded by the value at `idx`'s parent. -/
def RDown [LinearOrder T] (s : MutHeap T) (idx : Nat) : Prop :=
  (∀ i a b, 0 < i → i < s.size → i / 2 ≠ idx → s.arr i = some a →
      s.arr (i / 2) = some b → a.1 ≤ b.1) ∧
  (0 < idx → ∀ c a b, 0 < c → c < s.size → c / 2 = idx → s.arr c = some a →
      s.arr (idx / 2) = some b → a.1 ≤ b.1)

theorem swapStep_size (s : MutHeap T) (i j : Nat) (wi wj : T × Nat) :
    (swapStep s i j wi wj).size = s.size := rfl

theorem swapStep_next (s : MutHeap T) (i j : Nat) (wi wj : T × Nat) :
    (swapStep s i j wi wj).next = s.next := rfl

/-- Any property preserved by single swap steps (between populated in-range
slots) is preserved by a `percolate_up` run started in range. -/
theorem percolate_up_pres (lt : T → T → Bool) (P : MutHeap T → Prop)
    (hP : ∀ s i j wi wj, i < s.size → j < s.size → s.arr i = some wi →
      s.arr j = some wj → P s → P (swapStep s i j wi wj)) :
    ∀ fuel (s : MutHeap T) idx, idx < s.size → P s →
      P (percolate_up lt fuel s idx) := by
  intro fuel
  induction fuel with
  | zero => intro s idx _ hp; exact hp
  | succ n ih =>
    intro s idx hidx hp
    rw [percolate_up]
    by_cases h0 : idx = 0
    · simp only [h0, if_true]; exact hp
    · simp only [h0, if_false]
      cases hc : s.arr idx with
      | none => exact hp
      | some child =>
        cases hpar : s.arr (idx / 2) with
        | none => exact hp
        | some parent =>
          by_cases hlt : lt parent.1 child.1
          · simp only [hlt, if_true]
            have hj : idx / 2 < s.size := lt_of_le_of_lt (Nat.div_le_self idx 2) hidx
            have := hP s idx (idx / 2) child parent hidx hj hc hpar hp
            exact ih _ (idx / 2) hj this
          · simp only [hlt, if_false]; exact hp

/-- Outcomes of the `highest` election that matter for the invariants:
either the slot itself, or a strictly deeper populated slot whose parent in
the heap tree is `idx`. -/
def childOk (s : MutHeap T) (idx : Nat) (cur : T × Nat)
    (r : Nat × (T × Nat)) : Prop :=
  r = (idx, cur) ∨
    (idx < r.1 ∧ r.1 < s.size ∧ r.1 / 2 = idx ∧ s.arr r.1 = some r.2)

theorem pickChild2_ok (lt : T → T → Bool) (s : MutHeap T) (idx : Nat)
    (cur : T × Nat) (c1 : Nat × (T × Nat)) (h : childOk s idx cur c1) :
    childOk s idx cur (pickChild2 lt s idx c1) := by
  unfold pickChild2
  by_cases h3 : 2 * idx + 1 < s.size
  · simp only [h3, if_true]
    cases h4 : s.arr (2 * idx + 1) with
    | none => exact h
    | some b =>
      by_cases hlt : lt c1.2.1 b.1
      · simp only [hlt, if_true]
        exact Or.inr ⟨by omega, h3, by omega, h4⟩
      · simp only [hlt, if_false]; exact h
  · simp only [h3, if_false]; exact h

/-- Basic shape of the elected child: either the slot itself, or a strictly
deeper populated in-range slot whose parent is `idx`. -/
theorem pickChild_basic (lt : T → T → Bool) (s : MutHeap T) (idx : Nat)
    (cur : T × Nat) (hg : 2 * idx < s.size) (hcur : s.arr idx = some cur) :
    childOk s idx cur (pickChild lt s idx cur) := by
  unfold pickChild
  apply pickChild2_ok
  cases h2 : s.arr (2 * idx) with
  | none => exact Or.inl rfl
  | some a =>
    by_cases hlt1 : lt cur.1 a.1
    · simp only [hlt1, if_true]
      by_cases hi : 0 < idx
      · exact Or.inr ⟨by omega, by omega, by omega, h2⟩
      · have hi0 : idx = 0 := by omega
        subst hi0
        rw [show 2 * 0 = 0 by norm_num] at h2
        rw [hcur] at h2
        have ha : a = cur := (Option.some.inj h2).symm
        subst ha
        exact Or.inl rfl
    · simp only [hlt1, if_false]
      exact Or.inl rfl

/-- Any property preserved by single swap steps is preserved by a
`percolate_down` run. -/
theorem percolate_down_pres (lt : T → T → Bool) (P : MutHeap T → Prop)
    (hP : ∀ s i j wi wj, i < s.size → j < s.size → s.arr i = some wi →
      s.arr j = some wj → P s → P (swapStep s i j wi wj)) :
    ∀ fuel (s : MutHeap T) idx, P s → P (percolate_down lt fuel s idx) := by
  intro fuel
  induction fuel with
  | zero => intro s idx hp; exact hp
  | succ n ih =>
    intro s idx hp
    rw [percolate_down]
    by_cases hg : 2 * idx < s.size
    · simp only [hg, if_true]
      cases hc : s.arr idx with
      | none => exact hp
      | some cur =>
        have hidx : idx < s.size := by omega
        rcases pickChild_basic lt s idx cur hg hc with hpick | hpick
        · simp only [hpick]; exact hp
        · have hstop : ¬ ((pickChild lt s idx cur).1 = idx) := by omega
          simp only [hstop, if_false]
          exact ih _ _
            (hP s idx (pickChild lt s idx cur).1 cur (pickChild lt s idx cur).2
              hidx hpick.2.1 hc hpick.2.2.2 hp)
    · simp only [hg, if_false]; exact hp


theorem percolate_up_size (lt : T → T → Bool) :
    ∀ fuel (s : MutHeap T) idx, (percolate_up lt fuel s idx).size = s.size := by
  intro fuel
  induction fuel with
  | zero => intro s idx; rfl
  | succ n ih =>
    intro s idx
    rw [percolate_up]
    by_cases h0 : idx = 0
    · simp [h0]
    · simp only [h0, if_false]
      cases hc : s.arr idx with
      | none => rfl
      | some child =>
        cases hpar : s.arr (idx / 2) with
        | none => rfl
        | some parent =>
          by_cases hlt : lt parent.1 child.1
          · simp only [hlt, if_true]; exact ih _ _
          · simp [hlt]

theorem percolate_up_next (lt : T → T → Bool) :
    ∀ fuel (s : MutHeap T) idx, (percolate_up lt fuel s idx).next = s.next := by
  intro fuel
  induction fuel with
  | zero => intro s idx; rfl
  | succ n ih =>
    intro s idx
    rw [percolate_up]
    by_cases h0 : idx = 0
    · simp [h0]
    · simp only [h0, if_false]
      cases hc : s.arr idx with
      | none => rfl
      | some child =>
        cases hpar : s.arr (idx / 2) with
        | none => rfl
        | some parent =>
          by_cases hlt : lt parent.1 child.1
          · simp only [hlt, if_true]; exact ih _ _
          · simp [hlt]

theorem percolate_down_size (lt : T → T → Bool) :
    ∀ fuel (s : MutHeap T) idx, (percolate_down lt fuel s idx).size = s.size := by
  intro fuel
  induction fuel with
  | zero => intro s idx; rfl
  | succ n ih =>
    intro s idx
    rw [percolate_down]
    by_cases hg : 2 * idx < s.size
    · simp only [hg, if_true]
      cases hc : s.arr idx with
      | none => rfl
      | some cur =>
        by_cases hstop : (pickChild lt s idx cur).1 = idx
        · simp only [hstop, if_true]
        · simp only [hstop, if_false]; exact ih _ _
    · simp only [hg, if_false]

theorem percolate_down_next (lt : T → T → Bool) :
    ∀ fuel (s : MutHeap T) idx, (percolate_down lt fuel s idx).next = s.next := by
  intro fuel
  induction fuel with
  | zero => intro s idx; rfl
  | succ n ih =>
    intro s idx
    rw [percolate_down]
    by_cases hg : 2 * idx < s.size
    · simp only [hg, if_true]
      cases hc : s.arr idx with
      | none => rfl
      | some cur =>
        by_cases hstop : (pickChild lt s idx cur).1 = idx
        · simp only [hstop, if_true]
        · simp only [hstop, if_false]; exact ih _ _
    · simp only [hg, if_false]

theorem swapStep_arrSome (s : MutHeap T) (i j : Nat) (wi wj : T × Nat)
    (hi : i < s.size) (hj : j < s.size) (hwi : s.arr i = some wi)
    (hwj : s.arr j = some wj) (h : arrSome s) :
    arrSome (swapStep s i j wi wj) := by
  intro k hk
  show ((swap2 s.arr i j) k).isSome
  unfold swap2
  by_cases hki : k = i
  · simp [hki, hwj]
  · by_cases hkj : k = j
    · by_cases hji : j = i
      · simp [hki, hkj, hji, hwi]
      · simp [hki, hkj, hji, hwi]
    · simp only [hki, hkj, if_false]
      exact h k hk

theorem percolate_up_arrSome (lt : T → T → Bool) (fuel : Nat) (s : MutHeap T)
    (idx : Nat) (hidx : idx < s.size) (h : arrSome s) :
    arrSome (percolate_up lt fuel s idx) :=
  percolate_up_pres lt arrSome
    (fun s i j wi wj hi hj hwi hwj hp => swapStep_arrSome s i j wi wj hi hj hwi hwj hp)
    fuel s idx hidx h

theorem percolate_down_arrSome (lt : T → T → Bool) (fuel : Nat) (s : MutHeap T)
    (idx : Nat) (h : arrSome s) :
    arrSome (percolate_down lt fuel s idx) :=
  percolate_down_pres lt arrSome
    (fun s i j wi wj hi hj hwi hwj hp => swapStep_arrSome s i j wi wj hi hj hwi hwj hp)
    fuel s idx h


/-- The comparison `a < b` of a Rust `Ord` instance, for an ordered item
type. -/
def ltb {T : Type} [LinearOrder T] : T → T → Bool := fun a b => decide (a < b)

theorem ltb_lt [LinearOrder T] {a b : T} (h : ltb a b = true) : a < b := by
  simpa [ltb] using h

theorem ltb_le [LinearOrder T] {a b : T} (h : ¬ ltb a b = true) : b ≤ a := by
  simp only [ltb, decide_eq_true_eq] at h
  exact le_of_not_lt h

/-- One `percolate_up` swap turns the almost-heap invariant at `idx` into the
almost-heap invariant at the parent `idx / 2`. -/
theorem QUp_step [LinearOrder T] {s : MutHeap T} {idx : Nat}
    {child parent : T × Nat} (h0 : idx ≠ 0) (hidx : idx < s.size)
    (hc : s.arr idx = some child) (hpar : s.arr (idx / 2) = some parent)
    (hlt : parent.1 < child.1) (hq : QUp s idx) :
    QUp (swapStep s idx (idx / 2) child parent) (idx / 2) := by
  obtain ⟨q1, q2⟩ := hq
  have harr : ∀ k, (swapStep s idx (idx / 2) child parent).arr k =
      if k = idx then s.arr (idx / 2) else if k = idx / 2 then s.arr idx
      else s.arr k := fun k => rfl
  constructor
  · intro i a b hi his hip hai hbi
    rw [swapStep_size] at his
    rw [harr] at hai
    rw [harr] at hbi
    by_cases hi1 : i = idx
    · rw [if_pos hi1] at hai
      have ha : a = parent := by rw [hai] at hpar; exact Option.some.inj hpar
      have hne : idx / 2 ≠ idx := by omega
      rw [hi1] at hbi
      rw [if_neg hne, if_pos rfl] at hbi
      have hb : b = child := by rw [hbi] at hc; exact Option.some.inj hc
      rw [ha, hb]
      exact le_of_lt hlt
    · rw [if_neg hi1, if_neg hip] at hai
      by_cases hd1 : i / 2 = idx
      · rw [if_pos hd1] at hbi
        have hb : b = parent := by rw [hbi] at hpar; exact Option.some.inj hpar
        rw [hb]
        exact q2 (by omega) i a parent hd1 hi his hai hpar
      · by_cases hd2 : i / 2 = idx / 2
        · rw [if_neg hd1, if_pos hd2] at hbi
          have hb : b = child := by rw [hbi] at hc; exact Option.some.inj hc
          rw [hb]
          have h1 : a.1 ≤ parent.1 := q1 i a parent hi his hi1 hai (by rw [hd2]; exact hpar)
          exact le_trans h1 (le_of_lt hlt)
        · rw [if_neg hd1, if_neg hd2] at hbi
          exact q1 i a b hi his hi1 hai hbi
  · intro hp0 c a b hcd hc0 hcs hca hcb
    rw [swapStep_size] at hcs
    rw [harr] at hca
    rw [harr] at hcb
    have hne1 : idx / 2 / 2 ≠ idx := by omega
    have hne2 : idx / 2 / 2 ≠ idx / 2 := by omega
    rw [if_neg hne1, if_neg hne2] at hcb
    have hps : idx / 2 < s.size := by omega
    have hpne : idx / 2 ≠ idx := by omega
    have hparb : parent.1 ≤ b.1 := q1 (idx / 2) parent b hp0 hps hpne hpar hcb
    by_cases hc1 : c = idx
    · rw [if_pos hc1] at hca
      have ha : a = parent := by rw [hca] at hpar; exact Option.some.inj hpar
      rw [ha]
      exact hparb
    · have hc2 : c ≠ idx / 2 := by omega
      rw [if_neg hc1, if_neg hc2] at hca
      have ha1 : a.1 ≤ parent.1 := q1 c a parent hc0 hcs hc1 hca (by rw [hcd]; exact hpar)
      exact le_trans ha1 hparb

/-- A `percolate_up` run started from the almost-heap invariant restores the
full heap property. -/
theorem percolate_up_heap [LinearOrder T] :
    ∀ fuel (s : MutHeap T) idx, idx ≤ fuel → idx < s.size → QUp s idx →
      heapProp (percolate_up ltb fuel s idx) := by
  intro fuel
  induction fuel with
  | zero =>
    intro s idx hf _ hq
    have h0 : idx = 0 := by omega
    subst h0
    intro i a b hi his hai hbi
    exact hq.1 i a b hi his (by omega) hai hbi
  | succ n ih =>
    intro s idx hf hidx hq
    rw [percolate_up]
    by_cases h0 : idx = 0
    · rw [if_pos h0]
      subst h0
      intro i a b hi his hai hbi
      exact hq.1 i a b hi his (by omega) hai hbi
    · rw [if_neg h0]
      cases hc : s.arr idx with
      | none =>
        intro i a b hi his hai hbi
        by_cases hi1 : i = idx
        · rw [hi1, hc] at hai; cases hai
        · exact hq.1 i a b hi his hi1 hai hbi
      | some child =>
        cases hpar : s.arr (idx / 2) with
        | none =>
          intro i a b hi his hai hbi
          by_cases hi1 : i = idx
          · rw [hi1, hpar] at hbi; cases hbi
          · exact hq.1 i a b hi his hi1 hai hbi
        | some parent =>
          by_cases hlt : ltb parent.1 child.1
          · simp only [hlt, if_true]
            apply ih
            · omega
            · show idx / 2 < s.size
              omega
            · exact QUp_step h0 hidx hc hpar (ltb_lt hlt) ⟨hq.1, hq.2⟩
          · have hlf : ltb parent.1 child.1 = false := by
              simpa using hlt
            simp only [hlf, Bool.false_eq_true, if_false]
            have hle : child.1 ≤ parent.1 := ltb_le hlt
            intro i a b hi his hai hbi
            by_cases hi1 : i = idx
            · subst hi1
              rw [hc] at hai
              rw [hpar] at hbi
              have ha : a = child := (Option.some.inj hai).symm
              have hb : b = parent := (Option.some.inj hbi).symm
              rw [ha, hb]
              exact hle
            · exact hq.1 i a b hi his hi1 hai hbi


/-- Bounds provided by the second election stage: every in-range child of
`idx` is bounded by the electee's item, the electee dominates `cur`, strictly
so when it is a real child, and electing the slot itself means no change. -/
theorem pickChild2_max [LinearOrder T] (s : MutHeap T) (idx : Nat)
    (cur : T × Nat) (c1 : Nat × (T × Nat))
    (hcv : cur.1 ≤ c1.2.1)
    (hstrict : c1.1 ≠ idx → cur.1 < c1.2.1)
    (hself : c1.1 = idx → c1.2 = cur)
    (hbound : ∀ w, 0 < idx → s.arr (2 * idx) = some w → w.1 ≤ c1.2.1) :
    (∀ c w, 0 < c → c < s.size → c / 2 = idx → s.arr c = some w →
      w.1 ≤ (pickChild2 ltb s idx c1).2.1) ∧
    cur.1 ≤ (pickChild2 ltb s idx c1).2.1 ∧
    ((pickChild2 ltb s idx c1).1 ≠ idx → cur.1 < (pickChild2 ltb s idx c1).2.1) ∧
    ((pickChild2 ltb s idx c1).1 = idx → (pickChild2 ltb s idx c1).2 = cur) := by
  unfold pickChild2
  by_cases h3 : 2 * idx + 1 < s.size
  · rw [if_pos h3]
    cases h4 : s.arr (2 * idx + 1) with
    | none =>
      refine ⟨?_, hcv, hstrict, hself⟩
      intro c w hc0 hcs hcd hw
      have hcc : c = 2 * idx ∨ c = 2 * idx + 1 := by omega
      rcases hcc with hcc | hcc
      · exact hbound w (by omega) (hcc ▸ hw)
      · rw [hcc, h4] at hw; cases hw
    | some b =>
      by_cases hlt : ltb c1.2.1 b.1
      · simp only [hlt, if_true]
        have hcb : c1.2.1 < b.1 := ltb_lt hlt
        refine ⟨?_, le_of_lt (lt_of_le_of_lt hcv hcb),
          fun _ => lt_of_le_of_lt hcv hcb, ?_⟩
        · intro c w hc0 hcs hcd hw
          have hcc : c = 2 * idx ∨ c = 2 * idx + 1 := by omega
          rcases hcc with hcc | hcc
          · exact le_of_lt (lt_of_le_of_lt (hbound w (by omega) (hcc ▸ hw)) hcb)
          · rw [hcc, h4] at hw
            have hbw : b = w := Option.some.inj hw
            exact le_of_eq (congrArg Prod.fst hbw).symm
        · intro habs; exact absurd habs (by omega)
      · have hlf : ltb c1.2.1 b.1 = false := by simpa using hlt
        simp only [hlf, Bool.false_eq_true, if_false]
        have hba : b.1 ≤ c1.2.1 := ltb_le hlt
        refine ⟨?_, hcv, hstrict, hself⟩
        intro c w hc0 hcs hcd hw
        have hcc : c = 2 * idx ∨ c = 2 * idx + 1 := by omega
        rcases hcc with hcc | hcc
        · exact hbound w (by omega) (hcc ▸ hw)
        · rw [hcc, h4] at hw
          have hbw : b = w := Option.some.inj hw
          rw [← hbw]
          exact hba
  · rw [if_neg h3]
    refine ⟨?_, hcv, hstrict, hself⟩
    intro c w hc0 hcs hcd hw
    have hcc : c = 2 * idx ∨ c = 2 * idx + 1 := by omega
    rcases hcc with hcc | hcc
    · exact hbound w (by omega) (hcc ▸ hw)
    · omega

/-- The elected child dominates every in-range child of `idx` and `cur`
itself (strictly when the election moved), and electing the slot itself
yields `cur` back. -/
theorem pickChild_max [LinearOrder T] (s : MutHeap T) (idx : Nat)
    (cur : T × Nat) (hcur : s.arr idx = some cur) :
    (∀ c w, 0 < c → c < s.size → c / 2 = idx → s.arr c = some w →
      w.1 ≤ (pickChild ltb s idx cur).2.1) ∧
    cur.1 ≤ (pickChild ltb s idx cur).2.1 ∧
    ((pickChild ltb s idx cur).1 ≠ idx → cur.1 < (pickChild ltb s idx cur).2.1) ∧
    ((pickChild ltb s idx cur).1 = idx → (pickChild ltb s idx cur).2 = cur) := by
  unfold pickChild
  cases h2 : s.arr (2 * idx) with
  | none =>
    apply pickChild2_max
    · exact le_refl _
    · intro h; exact absurd rfl h
    · intro _; rfl
    · intro w _ hw; rw [h2] at hw; cases hw
  | some a =>
    by_cases hlt1 : ltb cur.1 a.1
    · simp only [hlt1, if_true]
      by_cases hi : 0 < idx
      · apply pickChild2_max
        · exact le_of_lt (ltb_lt hlt1)
        · intro _; exact ltb_lt hlt1
        · intro habs; exact absurd habs (by omega)
        · intro w _ hw
          rw [h2] at hw
          have haw : a = w := Option.some.inj hw
          exact le_of_eq (congrArg Prod.fst haw).symm
      · exfalso
        have hidx0 : idx = 0 := by omega
        rw [hidx0, show 2 * 0 = 0 by norm_num] at h2
        rw [hidx0] at hcur
        rw [hcur] at h2
        have hac : cur = a := Option.some.inj h2
        have hcc := ltb_lt hlt1
        rw [← hac] at hcc
        exact lt_irrefl _ hcc
    · have hlf : ltb cur.1 a.1 = false := by simpa using hlt1
      simp only [hlf, Bool.false_eq_true, if_false]
      apply pickChild2_max
      · exact le_refl _
      · intro h; exact absurd rfl h
      · intro _; rfl
      · intro w _ hw
        rw [h2] at hw
        have haw : a = w := Option.some.inj hw
        have hale : a.1 ≤ cur.1 := ltb_le hlt1
        rw [haw] at hale
        exact hale

/-- One `percolate_down` swap turns the almost-heap invariant at `idx` into
the almost-heap invariant at the elected child. -/
theorem RDown_step [LinearOrder T] {s : MutHeap T} {idx : Nat} {cur : T × Nat}
    {h : Nat} {v : T × Nat}
    (hr : RDown s idx) (hlt : cur.1 < v.1)
    (hcov : ∀ c w, 0 < c → c < s.size → c / 2 = idx → s.arr c = some w →
      w.1 ≤ v.1)
    (hhi : idx < h) (hhs : h < s.size) (hhp : h / 2 = idx)
    (hhv : s.arr h = some v) (hcur : s.arr idx = some cur) :
    RDown (swapStep s idx h cur v) h := by
  obtain ⟨r1, r3⟩ := hr
  have harr : ∀ k, (swapStep s idx h cur v).arr k =
      if k = idx then s.arr h else if k = h then s.arr idx else s.arr k :=
    fun k => rfl
  constructor
  · intro i a b hi his hip hai hbi
    rw [swapStep_size] at his
    rw [harr] at hai
    rw [harr] at hbi
    by_cases hi1 : i = idx
    · rw [if_pos hi1] at hai
      rw [hhv] at hai
      have ha : v = a := Option.some.inj hai
      have hidx0 : 0 < idx := by omega
      have hd1 : i / 2 ≠ idx := by omega
      have hd2 : i / 2 ≠ h := by omega
      rw [if_neg hd1, if_neg hd2] at hbi
      have hdiv : i / 2 = idx / 2 := by omega
      rw [hdiv] at hbi
      rw [← ha]
      exact r3 hidx0 h v b (by omega) hhs hhp hhv hbi
    · by_cases hi2 : i = h
      · rw [if_neg hi1, if_pos hi2] at hai
        rw [hcur] at hai
        have ha : cur = a := Option.some.inj hai
        have hd : i / 2 = idx := by omega
        rw [if_pos hd] at hbi
        rw [hhv] at hbi
        have hb : v = b := Option.some.inj hbi
        rw [← ha, ← hb]
        exact le_of_lt hlt
      · rw [if_neg hi1, if_neg hi2] at hai
        by_cases hd1 : i / 2 = idx
        · rw [if_pos hd1] at hbi
          rw [hhv] at hbi
          have hb : v = b := Option.some.inj hbi
          rw [← hb]
          exact hcov i a hi his hd1 hai
        · rw [if_neg hd1, if_neg hip] at hbi
          exact r1 i a b hi his hd1 hai hbi
  · intro hh0 c a b hc0 hcs hcd hca hcb
    rw [swapStep_size] at hcs
    rw [harr] at hca
    rw [harr] at hcb
    rw [hhp] at hcb
    rw [if_pos rfl] at hcb
    rw [hhv] at hcb
    have hb : v = b := Option.some.inj hcb
    have hcne1 : c ≠ idx := by omega
    have hcne2 : c ≠ h := by omega
    rw [if_neg hcne1, if_neg hcne2] at hca
    have hcd2 : c / 2 ≠ idx := by omega
    have hav : a.1 ≤ v.1 := r1 c a v hc0 hcs hcd2 hca (by rw [hcd]; exact hhv)
    rw [← hb]
    exact hav

/-- A `percolate_down` run started from the almost-heap invariant restores
the full heap property. -/
theorem percolate_down_heap [LinearOrder T] :
    ∀ fuel (s : MutHeap T) idx, s.size ≤ fuel + idx → RDown s idx →
      heapProp (percolate_down ltb fuel s idx) := by
  intro fuel
  induction fuel with
  | zero =>
    intro s idx hf hr
    show heapProp s
    intro i a b hi his hai hbi
    by_cases hd : i / 2 = idx
    · omega
    · exact hr.1 i a b hi his hd hai hbi
  | succ n ih =>
    intro s idx hf hr
    rw [percolate_down]
    by_cases hg : 2 * idx < s.size
    · simp only [hg, if_true]
      cases hc : s.arr idx with
      | none =>
        intro i a b hi his hai hbi
        by_cases hd : i / 2 = idx
        · rw [hd, hc] at hbi; cases hbi
        · exact hr.1 i a b hi his hd hai hbi
      | some cur =>
        obtain ⟨hcov, hcv, hstrict, hself⟩ := pickChild_max s idx cur hc
        rcases pickChild_basic ltb s idx cur hg hc with hpl | hpr
        · have hstop : (pickChild ltb s idx cur).1 = idx := by rw [hpl]
          simp only [hstop, if_true]
          intro i a b hi his hai hbi
          by_cases hd : i / 2 = idx
          · rw [hd, hc] at hbi
            have hb : cur = b := Option.some.inj hbi
            have hle := hcov i a hi his hd hai
            rw [hpl] at hle
            rw [← hb]
            exact hle
          · exact hr.1 i a b hi his hd hai hbi
        · obtain ⟨hhi, hhs, hhp, hhv⟩ := hpr
          have hsne : ¬ ((pickChild ltb s idx cur).1 = idx) := by omega
          simp only [hsne, if_false]
          apply ih
          · show s.size ≤ n + (pickChild ltb s idx cur).1
            omega
          · exact RDown_step ⟨hr.1, hr.2⟩ (hstrict (by omega)) hcov hhi hhs hhp
              hhv hc
    · simp only [hg, if_false]
      intro i a b hi his hai hbi
      by_cases hd : i / 2 = idx
      · omega
      · exact hr.1 i a b hi his hd hai hbi

/-- In a heap, the root dominates every element. -/
theorem heapProp_root_max [LinearOrder T] {s : MutHeap T} (hh : heapProp s)
    (hsome : arrSome s) {r : T × Nat} (h0 : s.arr 0 = some r) :
    ∀ i w, i < s.size → s.arr i = some w → w.1 ≤ r.1 := by
  intro i
  induction i using Nat.strong_induction_on with
  | _ i ih =>
    intro w hi hw
    by_cases hi0 : i = 0
    · rw [hi0, h0] at hw
      have hrw : r = w := Option.some.inj hw
      exact le_of_eq (congrArg Prod.fst hrw.symm)
    · have hpos : 0 < i := by omega
      have hps : i / 2 < s.size := by omega
      obtain ⟨b, hb⟩ := Option.isSome_iff_exists.mp (hsome (i / 2) hps)
      have h1 : w.1 ≤ b.1 := hh i w b hpos hi hw hb
      have h2 : b.1 ≤ r.1 := ih (i / 2) (by omega) b hps hb
      exact le_trans h1 h2

theorem upd_self {α : Type} (f : Nat → Option α) (i : Nat) (v : α) :
    upd f i v i = some v := by simp [upd]

theorem upd_ne {α : Type} (f : Nat → Option α) (i : Nat) (v : α) {j : Nat}
    (h : j ≠ i) : upd f i v j = f j := by simp [upd, h]

theorem tdel_self {α : Type} (f : Nat → Option α) (i : Nat) :
    tdel f i i = none := by simp [tdel]

theorem tdel_ne {α : Type} (f : Nat → Option α) (i : Nat) {j : Nat}
    (h : j ≠ i) : tdel f i j = f j := by simp [tdel, h]

/-- Well-formedness carried through every successful heap operation:
populated slots and the max-heap property. -/
def WF [LinearOrder T] (s : MutHeap T) : Prop := arrSome s ∧ heapProp s

theorem empty_WF [LinearOrder T] : WF (empty T) := by
  constructor
  · intro i hi; exact absurd hi (by simp [empty])
  · intro i a b _ hi _ _; exact absurd hi (by simp [empty])

theorem insert_WF [LinearOrder T] {s : MutHeap T} (hw : WF s) (v : T) :
    WF (insert ltb s v).2 := by
  obtain ⟨hsome, hheap⟩ := hw
  constructor
  · apply percolate_up_arrSome
    · show s.size < s.size + 1
      omega
    · intro i hi
      show (upd s.arr s.size (v, s.next) i).isSome
      by_cases hi1 : i = s.size
      · rw [hi1, upd_self]; rfl
      · rw [upd_ne _ _ _ hi1]
        exact hsome i (by
          have : i < s.size + 1 := hi
          omega)
  · apply percolate_up_heap
    · omega
    · show s.size < s.size + 1
      omega
    · constructor
      · intro i a b hi his hne hai hbi
        have his2 : i < s.size := by
          have : i < s.size + 1 := his
          omega
        have hai2 : upd s.arr s.size (v, s.next) i = some a := hai
        have hbi2 : upd s.arr s.size (v, s.next) (i / 2) = some b := hbi
        rw [upd_ne _ _ _ hne] at hai2
        rw [upd_ne _ _ _ (by omega : i / 2 ≠ s.size)] at hbi2
        exact hheap i a b hi his2 hai2 hbi2
      · intro h0 c a b hcd hc0 hcs hca hcb
        have : c < s.size + 1 := hcs
        omega

theorem pop_WF [LinearOrder T] {s s2 : MutHeap T} {x : T} (hw : WF s)
    (hp : pop_max ltb s = some (x, s2)) : WF s2 := by
  obtain ⟨hsome, hheap⟩ := hw
  unfold pop_max at hp
  by_cases h0 : s.size = 0
  · rw [if_pos h0] at hp; cases hp
  · rw [if_neg h0] at hp
    cases hl : s.arr (s.size - 1) with
    | none => rw [hl] at hp; exact Option.noConfusion hp
    | some last =>
      rw [hl] at hp
      dsimp only at hp
      by_cases h1 : s.size - 1 = 0
      · rw [if_pos h1] at hp
        have hs2 : s2 = { s with size := 0, cells := tdel s.cells last.2 } :=
          (congrArg Prod.snd (Option.some.inj hp)).symm
        rw [hs2]
        constructor
        · intro i hi
          have hi2 : i < 0 := hi
          exact absurd hi2 (by omega)
        · intro i a b _ hi _ _
          have hi2 : i < 0 := hi
          exact absurd hi2 (by omega)
      · rw [if_neg h1] at hp
        cases hr : s.arr 0 with
        | none => rw [hr] at hp; exact Option.noConfusion hp
        | some root =>
          rw [hr] at hp
          dsimp only at hp
          have hs2 : s2 = pDown ltb { s with size := s.size - 1, arr := upd s.arr 0 last, cells := tdel s.cells root.2 } 0 :=
            (congrArg Prod.snd (Option.some.inj hp)).symm
          rw [hs2]
          constructor
          · apply percolate_down_arrSome
            intro i hi
            have hi2 : i < s.size - 1 := hi
            show (upd s.arr 0 last i).isSome
            by_cases hi0 : i = 0
            · rw [hi0, upd_self]; rfl
            · rw [upd_ne _ _ _ hi0]
              exact hsome i (by omega)
          · apply percolate_down_heap
            · omega
            · constructor
              · intro i a b hi his hd hai hbi
                have his2 : i < s.size - 1 := his
                have hai2 : upd s.arr 0 last i = some a := hai
                have hbi2 : upd s.arr 0 last (i / 2) = some b := hbi
                rw [upd_ne _ _ _ (by omega : i ≠ 0)] at hai2
                rw [upd_ne _ _ _ (by omega : i / 2 ≠ 0)] at hbi2
                exact hheap i a b hi (by omega) hai2 hbi2
              · intro h0x
                exact absurd h0x (by omega)

theorem increment_WF [LinearOrder T] {s s2 : MutHeap T} {h : Nat} {f : T → T}
    (hf : ∀ x, x ≤ f x) (hw : WF s)
    (hok : increment ltb s h f = .ok s2) : WF s2 := by
  obtain ⟨hsome, hheap⟩ := hw
  unfold increment at hok
  cases hch : s.cells h with
  | none => rw [hch] at hok; exact Except.noConfusion hok
  | some idx =>
    rw [hch] at hok
    dsimp only at hok
    by_cases hi : idx < s.size
    · rw [if_pos hi] at hok
      cases hai : s.arr idx with
      | none => rw [hai] at hok; exact Except.noConfusion hok
      | some w =>
        rw [hai] at hok
        dsimp only at hok
        have hs2 : s2 = pUp ltb { s with arr := upd s.arr idx (f w.1, w.2) } idx := by
          cases hok; rfl
        rw [hs2]
        constructor
        · apply percolate_up_arrSome
          · exact hi
          · intro i hi2
            have hi3 : i < s.size := hi2
            show (upd s.arr idx (f w.1, w.2) i).isSome
            by_cases hii : i = idx
            · rw [hii, upd_self]; rfl
            · rw [upd_ne _ _ _ hii]
              exact hsome i hi3
        · apply percolate_up_heap
          · omega
          · exact hi
          · constructor
            · intro i a b hi2 his hne hai2 hbi2
              have his2 : i < s.size := his
              have hau : upd s.arr idx (f w.1, w.2) i = some a := hai2
              have hbu : upd s.arr idx (f w.1, w.2) (i / 2) = some b := hbi2
              rw [upd_ne _ _ _ hne] at hau
              by_cases hd : i / 2 = idx
              · rw [hd, upd_self] at hbu
                have hb : (f w.1, w.2) = b := Option.some.inj hbu
                have hab : a.1 ≤ w.1 :=
                  hheap i a w hi2 his2 hau (by rw [hd]; exact hai)
                rw [← hb]
                exact le_trans hab (hf w.1)
              · rw [upd_ne _ _ _ hd] at hbu
                exact hheap i a b hi2 his2 hau hbu
            · intro h0 c a b hcd hc0 hcs hca hcb
              have hcs2 : c < s.size := hcs
              have hc1 : c ≠ idx := by omega
              have hb1 : idx / 2 ≠ idx := by omega
              have hcu : upd s.arr idx (f w.1, w.2) c = some a := hca
              have hbu : upd s.arr idx (f w.1, w.2) (idx / 2) = some b := hcb
              rw [upd_ne _ _ _ hc1] at hcu
              rw [upd_ne _ _ _ hb1] at hbu
              have h1 : a.1 ≤ w.1 :=
                hheap c a w hc0 hcs2 hcu (by rw [hcd]; exact hai)
              have h2 : w.1 ≤ b.1 := hheap idx w b h0 hi hai hbu
              exact le_trans h1 h2
    · rw [if_neg hi] at hok; exact Except.noConfusion hok

theorem decrement_WF [LinearOrder T] {s s2 : MutHeap T} {h : Nat} {f : T → T}
    (hf : ∀ x, f x ≤ x) (hw : WF s)
    (hok : decrement ltb s h f = .ok s2) : WF s2 := by
  obtain ⟨hsome, hheap⟩ := hw
  unfold decrement at hok
  cases hch : s.cells h with
  | none => rw [hch] at hok; exact Except.noConfusion hok
  | some idx =>
    rw [hch] at hok
    dsimp only at hok
    by_cases hi : idx < s.size
    · rw [if_pos hi] at hok
      cases hai : s.arr idx with
      | none => rw [hai] at hok; exact Except.noConfusion hok
      | some w =>
        rw [hai] at hok
        dsimp only at hok
        have hs2 : s2 = pDown ltb { s with arr := upd s.arr idx (f w.1, w.2) } idx := by
          cases hok; rfl
        rw [hs2]
        constructor
        · apply percolate_down_arrSome
          intro i hi2
          have hi3 : i < s.size := hi2
          show (upd s.arr idx (f w.1, w.2) i).isSome
          by_cases hii : i = idx
          · rw [hii, upd_self]; rfl
          · rw [upd_ne _ _ _ hii]
            exact hsome i hi3
        · apply percolate_down_heap
          · omega
          · constructor
            · intro i a b hi2 his hd hai2 hbi2
              have his2 : i < s.size := his
              have hau : upd s.arr idx (f w.1, w.2) i = some a := hai2
              have hbu : upd s.arr idx (f w.1, w.2) (i / 2) = some b := hbi2
              rw [upd_ne _ _ _ hd] at hbu
              by_cases hii : i = idx
              · rw [hii, upd_self] at hau
                have ha : (f w.1, w.2) = a := Option.some.inj hau
                have hwb : w.1 ≤ b.1 :=
                  hheap idx w b (by omega) hi hai (by rw [← hii]; exact hbu)
                rw [← ha]
                exact le_trans (hf w.1) hwb
              · rw [upd_ne _ _ _ hii] at hau
                exact hheap i a b hi2 his2 hau hbu
            · intro h0 c a b hc0 hcs hcd hca hcb
              have hcs2 : c < s.size := hcs
              have hc1 : c ≠ idx := by omega
              have hb1 : idx / 2 ≠ idx := by omega
              have hcu : upd s.arr idx (f w.1, w.2) c = some a := hca
              have hbu : upd s.arr idx (f w.1, w.2) (idx / 2) = some b := hcb
              rw [upd_ne _ _ _ hc1] at hcu
              rw [upd_ne _ _ _ hb1] at hbu
              have h1 : a.1 ≤ w.1 :=
                hheap c a w hc0 hcs2 hcu (by rw [hcd]; exact hai)
              have h2 : w.1 ≤ b.1 := hheap idx w b h0 hi hai hbu
              exact le_trans h1 h2
    · rw [if_neg hi] at hok; exact Except.noConfusion hok

/-- Handle-identifier hygiene: every live slot's tag is below the fresh-tag
counter, and distinct slots carry distinct tags (each `Rc` cell belongs to
exactly one wrapper). -/
def HInv (s : MutHeap T) : Prop :=
  (∀ i w, i < s.size → s.arr i = some w → w.2 < s.next) ∧
  (∀ i j wi wj, i < s.size → j < s.size → i ≠ j → s.arr i = some wi →
    s.arr j = some wj → wi.2 ≠ wj.2)

/-- The handle identifier `h` is dead: its cell has been dropped, it was
issued in the past, and no live slot carries it. -/
def Dead (h : Nat) (s : MutHeap T) : Prop :=
  s.cells h = none ∧ h < s.next ∧
  ∀ i w, i < s.size → s.arr i = some w → w.2 ≠ h

theorem swapStep_HInv (s : MutHeap T) (i j : Nat) (wi wj : T × Nat)
    (hi : i < s.size) (hj : j < s.size) (hwi : s.arr i = some wi)
    (hwj : s.arr j = some wj) (hv : HInv s) : HInv (swapStep s i j wi wj) := by
  obtain ⟨h1, h2⟩ := hv
  have harr : ∀ k, (swapStep s i j wi wj).arr k =
      if k = i then s.arr j else if k = j then s.arr i else s.arr k :=
    fun k => rfl
  constructor
  · intro k w hk hw
    have hk2 : k < s.size := hk
    rw [harr] at hw
    by_cases hki : k = i
    · rw [if_pos hki] at hw; exact h1 j w hj hw
    · rw [if_neg hki] at hw
      by_cases hkj : k = j
      · rw [if_pos hkj] at hw; exact h1 i w hi hw
      · rw [if_neg hkj] at hw; exact h1 k w hk2 hw
  · intro k l wk wl hk hl hkl hwk hwl
    have hk2 : k < s.size := hk
    have hl2 : l < s.size := hl
    rw [harr] at hwk
    rw [harr] at hwl
    have hks : (if k = i then j else if k = j then i else k) < s.size := by
      split_ifs <;> assumption
    have hls : (if l = i then j else if l = j then i else l) < s.size := by
      split_ifs <;> assumption
    have hσne : (if k = i then j else if k = j then i else k) ≠
        (if l = i then j else if l = j then i else l) := by
      split_ifs <;> omega
    have hka : s.arr (if k = i then j else if k = j then i else k) = some wk := by
      split_ifs with a b
      · rw [if_pos a] at hwk; exact hwk
      · rw [if_neg a, if_pos b] at hwk; exact hwk
      · rw [if_neg a, if_neg b] at hwk; exact hwk
    have hla : s.arr (if l = i then j else if l = j then i else l) = some wl := by
      split_ifs with a b
      · rw [if_pos a] at hwl; exact hwl
      · rw [if_neg a, if_pos b] at hwl; exact hwl
      · rw [if_neg a, if_neg b] at hwl; exact hwl
    exact h2 _ _ wk wl hks hls hσne hka hla

theorem swapStep_Dead (h : Nat) (s : MutHeap T) (i j : Nat) (wi wj : T × Nat)
    (hi : i < s.size) (hj : j < s.size) (hwi : s.arr i = some wi)
    (hwj : s.arr j = some wj) (hd : Dead h s) : Dead h (swapStep s i j wi wj) := by
  obtain ⟨hc, hn, ha⟩ := hd
  refine ⟨?_, hn, ?_⟩
  · show upd (upd s.cells wi.2 j) wj.2 i h = none
    rw [upd_ne _ _ _ (fun he => ha j wj hj hwj he.symm)]
    rw [upd_ne _ _ _ (fun he => ha i wi hi hwi he.symm)]
    exact hc
  · intro k w hk hw
    have hk2 : k < s.size := hk
    have harr : (swapStep s i j wi wj).arr k =
        if k = i then s.arr j else if k = j then s.arr i else s.arr k := rfl
    rw [harr] at hw
    by_cases hki : k = i
    · rw [if_pos hki] at hw; exact ha j w hj hw
    · rw [if_neg hki] at hw
      by_cases hkj : k = j
      · rw [if_pos hkj] at hw; exact ha i w hi hw
      · rw [if_neg hkj] at hw; exact ha k w hk2 hw

theorem percolate_up_HInv (lt : T → T → Bool) (fuel : Nat) (s : MutHeap T)
    (idx : Nat) (hidx : idx < s.size) (h : HInv s) :
    HInv (percolate_up lt fuel s idx) :=
  percolate_up_pres lt HInv
    (fun s i j wi wj hi hj hwi hwj hp => swapStep_HInv s i j wi wj hi hj hwi hwj hp)
    fuel s idx hidx h

theorem percolate_down_HInv (lt : T → T → Bool) (fuel : Nat) (s : MutHeap T)
    (idx : Nat) (h : HInv s) : HInv (percolate_down lt fuel s idx) :=
  percolate_down_pres lt HInv
    (fun s i j wi wj hi hj hwi hwj hp => swapStep_HInv s i j wi wj hi hj hwi hwj hp)
    fuel s idx h

theorem percolate_up_Dead (lt : T → T → Bool) (h : Nat) (fuel : Nat)
    (s : MutHeap T) (idx : Nat) (hidx : idx < s.size) (hd : Dead h s) :
    Dead h (percolate_up lt fuel s idx) :=
  percolate_up_pres lt (Dead h)
    (fun s i j wi wj hi hj hwi hwj hp => swapStep_Dead h s i j wi wj hi hj hwi hwj hp)
    fuel s idx hidx hd

theorem percolate_down_Dead (lt : T → T → Bool) (h : Nat) (fuel : Nat)
    (s : MutHeap T) (idx : Nat) (hd : Dead h s) :
    Dead h (percolate_down lt fuel s idx) :=
  percolate_down_pres lt (Dead h)
    (fun s i j wi wj hi hj hwi hwj hp => swapStep_Dead h s i j wi wj hi hj hwi hwj hp)
    fuel s idx hd

theorem insert_HInv (lt : T → T → Bool) {s : MutHeap T} (hv : HInv s) (v : T) :
    HInv (insert lt s v).2 := by
  apply percolate_up_HInv
  · show s.size < s.size + 1
    omega
  · constructor
    · intro k w hk hw
      have hk2 : k < s.size + 1 := hk
      have hw2 : upd s.arr s.size (v, s.next) k = some w := hw
      show w.2 < s.next + 1
      by_cases hks : k = s.size
      · rw [hks, upd_self] at hw2
        have : (v, s.next) = w := Option.some.inj hw2
        rw [← this]
        omega
      · rw [upd_ne _ _ _ hks] at hw2
        have := hv.1 k w (by omega) hw2
        omega
    · intro k l wk wl hk hl hkl hwk hwl
      have hk2 : k < s.size + 1 := hk
      have hl2 : l < s.size + 1 := hl
      have hwk2 : upd s.arr s.size (v, s.next) k = some wk := hwk
      have hwl2 : upd s.arr s.size (v, s.next) l = some wl := hwl
      by_cases hks : k = s.size
      · rw [hks, upd_self] at hwk2
        have hlw : l ≠ s.size := by omega
        rw [upd_ne _ _ _ hlw] at hwl2
        have hlt := hv.1 l wl (by omega) hwl2
        have : (v, s.next) = wk := Option.some.inj hwk2
        rw [← this]
        omega
      · rw [upd_ne _ _ _ hks] at hwk2
        by_cases hls : l = s.size
        · rw [hls, upd_self] at hwl2
          have hklt := hv.1 k wk (by omega) hwk2
          have : (v, s.next) = wl := Option.some.inj hwl2
          rw [← this]
          omega
        · rw [upd_ne _ _ _ hls] at hwl2
          exact hv.2 k l wk wl (by omega) (by omega) hkl hwk2 hwl2

theorem insert_Dead (lt : T → T → Bool) {h : Nat} {s : MutHeap T}
    (hd : Dead h s) (v : T) : Dead h (insert lt s v).2 := by
  obtain ⟨hc, hn, ha⟩ := hd
  apply percolate_up_Dead
  · show s.size < s.size + 1
    omega
  · refine ⟨?_, ?_, ?_⟩
    · show upd s.cells s.next s.size h = none
      rw [upd_ne _ _ _ (by omega : h ≠ s.next)]
      exact hc
    · show h < s.next + 1
      omega
    · intro k w hk hw
      have hk2 : k < s.size + 1 := hk
      have hw2 : upd s.arr s.size (v, s.next) k = some w := hw
      by_cases hks : k = s.size
      · rw [hks, upd_self] at hw2
        have : (v, s.next) = w := Option.some.inj hw2
        rw [← this]
        show s.next ≠ h
        omega
      · rw [upd_ne _ _ _ hks] at hw2
        exact ha k w (by omega) hw2

theorem pop_HInv (lt : T → T → Bool) {s s2 : MutHeap T} {x : T}
    (hp : pop_max lt s = some (x, s2)) (hv : HInv s) : HInv s2 := by
  unfold pop_max at hp
  by_cases h0 : s.size = 0
  · rw [if_pos h0] at hp; exact Option.noConfusion hp
  · rw [if_neg h0] at hp
    cases hl : s.arr (s.size - 1) with
    | none => rw [hl] at hp; exact Option.noConfusion hp
    | some last =>
      rw [hl] at hp
      dsimp only at hp
      by_cases h1 : s.size - 1 = 0
      · rw [if_pos h1] at hp
        have hs2 : s2 = { s with size := 0, cells := tdel s.cells last.2 } :=
          (congrArg Prod.snd (Option.some.inj hp)).symm
        rw [hs2]
        constructor
        · intro i w hi
          have hi2 : i < 0 := hi
          exact absurd hi2 (by omega)
        · intro i j wi wj hi
          have hi2 : i < 0 := hi
          exact absurd hi2 (by omega)
      · rw [if_neg h1] at hp
        cases hr : s.arr 0 with
        | none => rw [hr] at hp; exact Option.noConfusion hp
        | some root =>
          rw [hr] at hp
          dsimp only at hp
          have hs2 : s2 = pDown lt { s with size := s.size - 1, arr := upd s.arr 0 last, cells := tdel s.cells root.2 } 0 :=
            (congrArg Prod.snd (Option.some.inj hp)).symm
          rw [hs2]
          apply percolate_down_HInv
          constructor
          · intro k w hk hw
            have hk2 : k < s.size - 1 := hk
            have hw2 : upd s.arr 0 last k = some w := hw
            by_cases hk0 : k = 0
            · rw [hk0, upd_self] at hw2
              have : last = w := Option.some.inj hw2
              rw [← this]
              exact hv.1 (s.size - 1) last (by omega) hl
            · rw [upd_ne _ _ _ hk0] at hw2
              exact hv.1 k w (by omega) hw2
          · intro k l wk wl hk hl2 hkl hwk hwl
            have hk2 : k < s.size - 1 := hk
            have hl3 : l < s.size - 1 := hl2
            have hwk2 : upd s.arr 0 last k = some wk := hwk
            have hwl2 : upd s.arr 0 last l = some wl := hwl
            by_cases hk0 : k = 0
            · rw [hk0, upd_self] at hwk2
              rw [upd_ne _ _ _ (by omega : l ≠ 0)] at hwl2
              have : last = wk := Option.some.inj hwk2
              rw [← this]
              exact hv.2 (s.size - 1) l last wl (by omega) (by omega) (by omega) hl hwl2
            · rw [upd_ne _ _ _ hk0] at hwk2
              by_cases hl0 : l = 0
              · rw [hl0, upd_self] at hwl2
                have : last = wl := Option.some.inj hwl2
                rw [← this]
                exact hv.2 k (s.size - 1) wk last (by omega) (by omega) (by omega) hwk2 hl
              · rw [upd_ne _ _ _ hl0] at hwl2
                exact hv.2 k l wk wl (by omega) (by omega) hkl hwk2 hwl2

/-- `pop_max` kills exactly the root's handle: the popped wrapper's tag is
dead afterwards. -/
theorem pop_Dead_root (lt : T → T → Bool) {s s2 : MutHeap T} {x : T}
    {root : T × Nat} (hroot : s.arr 0 = some root)
    (hp : pop_max lt s = some (x, s2)) (hv : HInv s) : Dead root.2 s2 := by
  unfold pop_max at hp
  by_cases h0 : s.size = 0
  · rw [if_pos h0] at hp; exact Option.noConfusion hp
  · rw [if_neg h0] at hp
    cases hl : s.arr (s.size - 1) with
    | none => rw [hl] at hp; exact Option.noConfusion hp
    | some last =>
      rw [hl] at hp
      dsimp only at hp
      by_cases h1 : s.size - 1 = 0
      · rw [if_pos h1] at hp
        have hs2 : s2 = { s with size := 0, cells := tdel s.cells last.2 } :=
          (congrArg Prod.snd (Option.some.inj hp)).symm
        have hlr : last = root := by
          rw [h1] at hl
          rw [hl] at hroot
          exact Option.some.inj hroot
        rw [hs2]
        refine ⟨?_, ?_, ?_⟩
        · show tdel s.cells last.2 root.2 = none
          rw [hlr, tdel_self]
        · exact hv.1 0 root (by omega) hroot
        · intro i w hi
          have hi2 : i < 0 := hi
          exact absurd hi2 (by omega)
      · rw [if_neg h1] at hp
        cases hr : s.arr 0 with
        | none => rw [hr] at hp; exact Option.noConfusion hp
        | some root2 =>
          rw [hr] at hp
          dsimp only at hp
          have hrr : root2 = root := by
            rw [hr] at hroot
            exact Option.some.inj hroot
          have hs2 : s2 = pDown lt { s with size := s.size - 1, arr := upd s.arr 0 last, cells := tdel s.cells root2.2 } 0 :=
            (congrArg Prod.snd (Option.some.inj hp)).symm
          rw [hs2, hrr]
          apply percolate_down_Dead
          refine ⟨?_, ?_, ?_⟩
          · show tdel s.cells root.2 root.2 = none
            rw [tdel_self]
          · exact hv.1 0 root (by omega) hroot
          · intro k w hk hw
            have hk2 : k < s.size - 1 := hk
            have hw2 : upd s.arr 0 last k = some w := hw
            by_cases hk0 : k = 0
            · rw [hk0, upd_self] at hw2
              have : last = w := Option.some.inj hw2
              rw [← this]
              exact hv.2 (s.size - 1) 0 last root (by omega) (by omega) (by omega) hl hroot
            · rw [upd_ne _ _ _ hk0] at hw2
              exact hv.2 k 0 w root (by omega) (by omega) hk0 hw2 hroot

theorem pop_Dead (lt : T → T → Bool) {h : Nat} {s s2 : MutHeap T} {x : T}
    (hp : pop_max lt s = some (x, s2)) (hd : Dead h s) : Dead h s2 := by
  obtain ⟨hc, hn, ha⟩ := hd
  unfold pop_max at hp
  by_cases h0 : s.size = 0
  · rw [if_pos h0] at hp; exact Option.noConfusion hp
  · rw [if_neg h0] at hp
    cases hl : s.arr (s.size - 1) with
    | none => rw [hl] at hp; exact Option.noConfusion hp
    | some last =>
      rw [hl] at hp
      dsimp only at hp
      by_cases h1 : s.size - 1 = 0
      · rw [if_pos h1] at hp
        have hs2 : s2 = { s with size := 0, cells := tdel s.cells last.2 } :=
          (congrArg Prod.snd (Option.some.inj hp)).symm
        rw [hs2]
        refine ⟨?_, hn, ?_⟩
        · show tdel s.cells last.2 h = none
          by_cases hhl : h = last.2
          · rw [hhl, tdel_self]
          · rw [tdel_ne _ _ hhl]; exact hc
        · intro i w hi
          have hi2 : i < 0 := hi
          exact absurd hi2 (by omega)
      · rw [if_neg h1] at hp
        cases hr : s.arr 0 with
        | none => rw [hr] at hp; exact Option.noConfusion hp
        | some root =>
          rw [hr] at hp
          dsimp only at hp
          have hs2 : s2 = pDown lt { s with size := s.size - 1, arr := upd s.arr 0 last, cells := tdel s.cells root.2 } 0 :=
            (congrArg Prod.snd (Option.some.inj hp)).symm
          rw [hs2]
          apply percolate_down_Dead
          refine ⟨?_, hn, ?_⟩
          · show tdel s.cells root.2 h = none
            by_cases hhr : h = root.2
            · rw [hhr, tdel_self]
            · rw [tdel_ne _ _ hhr]; exact hc
          · intro k w hk hw
            have hk2 : k < s.size - 1 := hk
            have hw2 : upd s.arr 0 last k = some w := hw
            by_cases hk0 : k = 0
            · rw [hk0, upd_self] at hw2
              have : last = w := Option.some.inj hw2
              rw [← this]
              exact ha (s.size - 1) last (by omega) hl
            · rw [upd_ne _ _ _ hk0] at hw2
              exact ha k w (by omega) hw2

theorem increment_HInv (lt : T → T → Bool) {s s2 : MutHeap T} {h : Nat}
    {f : T → T} (hok : increment lt s h f = .ok s2) (hv : HInv s) : HInv s2 := by
  unfold increment at hok
  cases hch : s.cells h with
  | none => rw [hch] at hok; exact Except.noConfusion hok
  | some idx =>
    rw [hch] at hok
    dsimp only at hok
    by_cases hi : idx < s.size
    · rw [if_pos hi] at hok
      cases hai : s.arr idx with
      | none => rw [hai] at hok; exact Except.noConfusion hok
      | some w =>
        rw [hai] at hok
        dsimp only at hok
        have hs2 : s2 = pUp lt { s with arr := upd s.arr idx (f w.1, w.2) } idx := by
          cases hok; rfl
        rw [hs2]
        apply percolate_up_HInv
        · exact hi
        · constructor
          · intro k wk hk hwk
            have hk2 : k < s.size := hk
            have hwk2 : upd s.arr idx (f w.1, w.2) k = some wk := hwk
            by_cases hki : k = idx
            · rw [hki, upd_self] at hwk2
              have : (f w.1, w.2) = wk := Option.some.inj hwk2
              rw [← this]
              exact hv.1 idx w hi hai
            · rw [upd_ne _ _ _ hki] at hwk2
              exact hv.1 k wk hk2 hwk2
          · intro k l wk wl hk hl hkl hwk hwl
            have hk2 : k < s.size := hk
            have hl2 : l < s.size := hl
            have hwk2 : upd s.arr idx (f w.1, w.2) k = some wk := hwk
            have hwl2 : upd s.arr idx (f w.1, w.2) l = some wl := hwl
            by_cases hki : k = idx
            · rw [hki, upd_self] at hwk2
              rw [upd_ne _ _ _ (by omega : l ≠ idx)] at hwl2
              have : (f w.1, w.2) = wk := Option.some.inj hwk2
              rw [← this]
              exact hv.2 idx l w wl hi hl2 (by omega) hai hwl2
            · rw [upd_ne _ _ _ hki] at hwk2
              by_cases hli : l = idx
              · rw [hli, upd_self] at hwl2
                have : (f w.1, w.2) = wl := Option.some.inj hwl2
                rw [← this]
                exact hv.2 k idx wk w hk2 hi hki hwk2 hai
              · rw [upd_ne _ _ _ hli] at hwl2
                exact hv.2 k l wk wl hk2 hl2 hkl hwk2 hwl2
    · rw [if_neg hi] at hok; exact Except.noConfusion hok

theorem increment_Dead (lt : T → T → Bool) {s s2 : MutHeap T} {h h2 : Nat}
    {f : T → T} (hok : increment lt s h2 f = .ok s2) (hd : Dead h s) :
    Dead h s2 := by
  obtain ⟨hc, hn, ha⟩ := hd
  unfold increment at hok
  cases hch : s.cells h2 with
  | none => rw [hch] at hok; exact Except.noConfusion hok
  | some idx =>
    rw [hch] at hok
    dsimp only at hok
    by_cases hi : idx < s.size
    · rw [if_pos hi] at hok
      cases hai : s.arr idx with
      | none => rw [hai] at hok; exact Except.noConfusion hok
      | some w =>
        rw [hai] at hok
        dsimp only at hok
        have hs2 : s2 = pUp lt { s with arr := upd s.arr idx (f w.1, w.2) } idx := by
          cases hok; rfl
        rw [hs2]
        apply percolate_up_Dead
        · exact hi
        · refine ⟨hc, hn, ?_⟩
          intro k wk hk hwk
          have hk2 : k < s.size := hk
          have hwk2 : upd s.arr idx (f w.1, w.2) k = some wk := hwk
          by_cases hki : k = idx
          · rw [hki, upd_self] at hwk2
            have : (f w.1, w.2) = wk := Option.some.inj hwk2
            rw [← this]
            exact ha idx w hi hai
          · rw [upd_ne _ _ _ hki] at hwk2
            exact ha k wk hk2 hwk2
    · rw [if_neg hi] at hok; exact Except.noConfusion hok

theorem decrement_HInv (lt : T → T → Bool) {s s2 : MutHeap T} {h : Nat}
    {f : T → T} (hok : decrement lt s h f = .ok s2) (hv : HInv s) : HInv s2 := by
  unfold decrement at hok
  cases hch : s.cells h with
  | none => rw [hch] at hok; exact Except.noConfusion hok
  | some idx =>
    rw [hch] at hok
    dsimp only at hok
    by_cases hi : idx < s.size
    · rw [if_pos hi] at hok
      cases hai : s.arr idx with
      | none => rw [hai] at hok; exact Except.noConfusion hok
      | some w =>
        rw [hai] at hok
        dsimp only at hok
        have hs2 : s2 = pDown lt { s with arr := upd s.arr idx (f w.1, w.2) } idx := by
          cases hok; rfl
        rw [hs2]
        apply percolate_down_HInv
        constructor
        · intro k wk hk hwk
          have hk2 : k < s.size := hk
          have hwk2 : upd s.arr idx (f w.1, w.2) k = some wk := hwk
          by_cases hki : k = idx
          · rw [hki, upd_self] at hwk2
            have : (f w.1, w.2) = wk := Option.some.inj hwk2
            rw [← this]
            exact hv.1 idx w hi hai
          · rw [upd_ne _ _ _ hki] at hwk2
            exact hv.1 k wk hk2 hwk2
        · intro k l wk wl hk hl hkl hwk hwl
          have hk2 : k < s.size := hk
          have hl2 : l < s.size := hl
          have hwk2 : upd s.arr idx (f w.1, w.2) k = some wk := hwk
          have hwl2 : upd s.arr idx (f w.1, w.2) l = some wl := hwl
          by_cases hki : k = idx
          · rw [hki, upd_self] at hwk2
            rw [upd_ne _ _ _ (by omega : l ≠ idx)] at hwl2
            have : (f w.1, w.2) = wk := Option.some.inj hwk2
            rw [← this]
            exact hv.2 idx l w wl hi hl2 (by omega) hai hwl2
          · rw [upd_ne _ _ _ hki] at hwk2
            by_cases hli : l = idx
            · rw [hli, upd_self] at hwl2
              have : (f w.1, w.2) = wl := Option.some.inj hwl2
              rw [← this]
              exact hv.2 k idx wk w hk2 hi hki hwk2 hai
            · rw [upd_ne _ _ _ hli] at hwl2
              exact hv.2 k l wk wl hk2 hl2 hkl hwk2 hwl2
    · rw [if_neg hi] at hok; exact Except.noConfusion hok

theorem decrement_Dead (lt : T → T → Bool) {s s2 : MutHeap T} {h h2 : Nat}
    {f : T → T} (hok : decrement lt s h2 f = .ok s2) (hd : Dead h s) :
    Dead h s2 := by
  obtain ⟨hc, hn, ha⟩ := hd
  unfold decrement at hok
  cases hch : s.cells h2 with
  | none => rw [hch] at hok; exact Except.noConfusion hok
  | some idx =>
    rw [hch] at hok
    dsimp only at hok
    by_cases hi : idx < s.size
    · rw [if_pos hi] at hok
      cases hai : s.arr idx with
      | none => rw [hai] at hok; exact Except.noConfusion hok
      | some w =>
        rw [hai] at hok
        dsimp only at hok
        have hs2 : s2 = pDown lt { s with arr := upd s.arr idx (f w.1, w.2) } idx := by
          cases hok; rfl
        rw [hs2]
        apply percolate_down_Dead
        refine ⟨hc, hn, ?_⟩
        intro k wk hk hwk
        have hk2 : k < s.size := hk
        have hwk2 : upd s.arr idx (f w.1, w.2) k = some wk := hwk
        by_cases hki : k = idx
        · rw [hki, upd_self] at hwk2
          have : (f w.1, w.2) = wk := Option.some.inj hwk2
          rw [← this]
          exact ha idx w hi hai
        · rw [upd_ne _ _ _ hki] at hwk2
          exact ha k wk hk2 hwk2
    · rw [if_neg hi] at hok; exact Except.noConfusion hok

/-- Using a dead handle is detected at the point of use: `increment` fails
with the stale-handle panic and mutates nothing. -/
theorem increment_stale (lt : T → T → Bool) {h : Nat} {s : MutHeap T}
    (hd : Dead h s) (f : T → T) : increment lt s h f = .error .stale := by
  unfold increment
  rw [hd.1]

theorem decrement_stale (lt : T → T → Bool) {h : Nat} {s : MutHeap T}
    (hd : Dead h s) (f : T → T) : decrement lt s h f = .error .stale := by
  unfold decrement
  rw [hd.1]

theorem empty_HInv : HInv (empty T) := by
  constructor
  · intro i w hi
    exact absurd hi (by simp [empty])
  · intro i j wi wj hi
    exact absurd hi (by simp [empty])

theorem runH_HInv (lt : T → T → Bool) :
    ∀ (ops : List (HOp T)) (s s2 : MutHeap T),
      runH lt s ops = some s2 → HInv s → HInv s2 := by
  intro ops
  induction ops with
  | nil =>
    intro s s2 hr hv
    have hss : s = s2 := Option.some.inj hr
    rw [← hss]; exact hv
  | cons op rest ih =>
    intro s s2 hr hv
    cases op with
    | ins v => exact ih _ _ hr (insert_HInv lt hv v)
    | pop =>
      rw [runH] at hr
      cases hpm : pop_max lt s with
      | some r =>
        obtain ⟨rx, rs⟩ := r
        rw [hpm] at hr
        dsimp only at hr
        exact ih _ _ hr (pop_HInv lt hpm hv)
      | none =>
        rw [hpm] at hr
        dsimp only at hr
        exact ih _ _ hr hv
    | inc h f =>
      rw [runH] at hr
      cases hic : increment lt s h f with
      | ok s3 =>
        rw [hic] at hr
        dsimp only at hr
        exact ih _ _ hr (increment_HInv lt hic hv)
      | error e =>
        rw [hic] at hr
        dsimp only at hr
        exact Option.noConfusion hr
    | dec h f =>
      rw [runH] at hr
      cases hic : decrement lt s h f with
      | ok s3 =>
        rw [hic] at hr
        dsimp only at hr
        exact ih _ _ hr (decrement_HInv lt hic hv)
      | error e =>
        rw [hic] at hr
        dsimp only at hr
        exact Option.noConfusion hr

theorem runH_Dead (lt : T → T → Bool) {h : Nat} :
    ∀ (ops : List (HOp T)) (s s2 : MutHeap T),
      runH lt s ops = some s2 → Dead h s → Dead h s2 := by
  intro ops
  induction ops with
  | nil =>
    intro s s2 hr hd
    have hss : s = s2 := Option.some.inj hr
    rw [← hss]; exact hd
  | cons op rest ih =>
    intro s s2 hr hd
    cases op with
    | ins v => exact ih _ _ hr (insert_Dead lt hd v)
    | pop =>
      rw [runH] at hr
      cases hpm : pop_max lt s with
      | some r =>
        obtain ⟨rx, rs⟩ := r
        rw [hpm] at hr
        dsimp only at hr
        exact ih _ _ hr (pop_Dead lt hpm hd)
      | none =>
        rw [hpm] at hr
        dsimp only at hr
        exact ih _ _ hr hd
    | inc h2 f =>
      rw [runH] at hr
      cases hic : increment lt s h2 f with
      | ok s3 =>
        rw [hic] at hr
        dsimp only at hr
        exact ih _ _ hr (increment_Dead lt hic hd)
      | error e =>
        rw [hic] at hr
        dsimp only at hr
        exact Option.noConfusion hr
    | dec h2 f =>
      rw [runH] at hr
      cases hic : decrement lt s h2 f with
      | ok s3 =>
        rw [hic] at hr
        dsimp only at hr
        exact ih _ _ hr (decrement_Dead lt hic hd)
      | error e =>
        rw [hic] at hr
        dsimp only at hr
        exact Option.noConfusion hr

/-- The per-operation contract of the heap trace for the ordering claims:
`increment` mutators may not decrease the item, `decrement` mutators may not
increase it (the Rust API's documented usage). -/
def OpOK [LinearOrder T] : HOp T → Prop
  | .inc _ f => ∀ x, x ≤ f x
  | .dec _ f => ∀ x, f x ≤ x
  | _ => True

theorem runH_WF [LinearOrder T] :
    ∀ (ops : List (HOp T)) (s s2 : MutHeap T),
      (∀ op ∈ ops, OpOK op) → runH ltb s ops = some s2 → WF s → WF s2 := by
  intro ops
  induction ops with
  | nil =>
    intro s s2 _ hr hw
    have hss : s = s2 := Option.some.inj hr
    rw [← hss]; exact hw
  | cons op rest ih =>
    intro s s2 hok hr hw
    have hokr : ∀ op ∈ rest, OpOK op := fun o ho => hok o (List.mem_cons_of_mem _ ho)
    cases op with
    | ins v => exact ih _ _ hokr hr (insert_WF hw v)
    | pop =>
      rw [runH] at hr
      cases hpm : pop_max ltb s with
      | some r =>
        obtain ⟨rx, rs⟩ := r
        rw [hpm] at hr
        dsimp only at hr
        exact ih _ _ hokr hr (pop_WF hw hpm)
      | none =>
        rw [hpm] at hr
        dsimp only at hr
        exact ih _ _ hokr hr hw
    | inc h f =>
      have hfo : ∀ x, x ≤ f x := hok (.inc h f) (List.mem_cons_self _ _)
      rw [runH] at hr
      cases hic : increment ltb s h f with
      | ok s3 =>
        rw [hic] at hr
        dsimp only at hr
        exact ih _ _ hokr hr (increment_WF hfo hw hic)
      | error e =>
        rw [hic] at hr
        dsimp only at hr
        exact Option.noConfusion hr
    | dec h f =>
      have hfo : ∀ x, f x ≤ x := hok (.dec h f) (List.mem_cons_self _ _)
      rw [runH] at hr
      cases hic : decrement ltb s h f with
      | ok s3 =>
        rw [hic] at hr
        dsimp only at hr
        exact ih _ _ hokr hr (decrement_WF hfo hw hic)
      | error e =>
        rw [hic] at hr
        dsimp only at hr
        exact Option.noConfusion hr

/-- Adding fuel beyond `idx` does not change a `percolate_up` run: the loop
terminates within `idx` iterations. -/
theorem percolate_up_fuel_succ (lt : T → T → Bool) :
    ∀ fuel (s : MutHeap T) idx, idx ≤ fuel →
      percolate_up lt fuel s idx = percolate_up lt (fuel + 1) s idx := by
  intro fuel
  induction fuel with
  | zero =>
    intro s idx hf
    have h0 : idx = 0 := by omega
    subst h0
    rfl
  | succ n ih =>
    intro s idx hf
    conv_lhs => rw [percolate_up]
    conv_rhs => rw [percolate_up]
    by_cases h0 : idx = 0
    · rw [if_pos h0, if_pos h0]
    · rw [if_neg h0, if_neg h0]
      cases hc : s.arr idx with
      | none => rfl
      | some child =>
        cases hpar : s.arr (idx / 2) with
        | none => rfl
        | some parent =>
          by_cases hlt : lt parent.1 child.1
          · simp only [hlt, if_true]
            exact ih _ _ (by omega)
          · have hlf : lt parent.1 child.1 = false := by simpa using hlt
            simp only [hlf, Bool.false_eq_true, if_false]

theorem percolate_up_fuel_ge (lt : T → T → Bool) (s : MutHeap T) (idx : Nat) :
    ∀ fuel, idx + 1 ≤ fuel → percolate_up lt fuel s idx = pUp lt s idx := by
  intro fuel hf
  induction fuel, hf using Nat.le_induction with
  | base => rfl
  | succ n hn ih =>
    rw [← percolate_up_fuel_succ lt n s idx (by omega)]
    exact ih

theorem percolate_down_fuel_succ (lt : T → T → Bool) :
    ∀ fuel (s : MutHeap T) idx, s.size ≤ fuel + idx →
      percolate_down lt fuel s idx = percolate_down lt (fuel + 1) s idx := by
  intro fuel
  induction fuel with
  | zero =>
    intro s idx hf
    conv_rhs => rw [percolate_down]
    rw [if_neg (by omega : ¬ 2 * idx < s.size)]
    rfl
  | succ n ih =>
    intro s idx hf
    conv_lhs => rw [percolate_down]
    conv_rhs => rw [percolate_down]
    by_cases hg : 2 * idx < s.size
    · rw [if_pos hg, if_pos hg]
      cases hc : s.arr idx with
      | none => rfl
      | some cur =>
        rcases pickChild_basic lt s idx cur hg hc with hpl | hpr
        · have hstop : (pickChild lt s idx cur).1 = idx := by rw [hpl]
          simp only [hstop, if_true]
        · have hsne : ¬ ((pickChild lt s idx cur).1 = idx) := by omega
          simp only [hsne, if_false]
          apply ih
          show s.size ≤ n + (pickChild lt s idx cur).1
          omega
    · rw [if_neg hg, if_neg hg]

theorem percolate_down_fuel_ge (lt : T → T → Bool) (s : MutHeap T) (idx : Nat) :
    ∀ fuel, s.size + 1 ≤ fuel → percolate_down lt fuel s idx = pDown lt s idx := by
  intro fuel hf
  induction fuel, hf using Nat.le_induction with
  | base => rfl
  | succ n hn ih =>
    rw [← percolate_down_fuel_succ lt n s idx (by omega)]
    exact ih

theorem pop_max_size (lt : T → T → Bool) {s s2 : MutHeap T} {x : T}
    (hp : pop_max lt s = some (x, s2)) : s2.size = s.size - 1 := by
  unfold pop_max at hp
  by_cases h0 : s.size = 0
  · rw [if_pos h0] at hp; exact Option.noConfusion hp
  · rw [if_neg h0] at hp
    cases hl : s.arr (s.size - 1) with
    | none => rw [hl] at hp; exact Option.noConfusion hp
    | some last =>
      rw [hl] at hp
      dsimp only at hp
      by_cases h1 : s.size - 1 = 0
      · rw [if_pos h1] at hp
        have hs2 : s2 = { s with size := 0, cells := tdel s.cells last.2 } :=
          (congrArg Prod.snd (Option.some.inj hp)).symm
        rw [hs2, h1]
      · rw [if_neg h1] at hp
        cases hr : s.arr 0 with
        | none => rw [hr] at hp; exact Option.noConfusion hp
        | some root =>
          rw [hr] at hp
          dsimp only at hp
          have hs2 : s2 = pDown lt { s with size := s.size - 1, arr := upd s.arr 0 last, cells := tdel s.cells root.2 } 0 :=
            (congrArg Prod.snd (Option.some.inj hp)).symm
          rw [hs2]
          unfold pDown
          rw [percolate_down_size]

end MutHeap

open MutHeap (upd_self upd_ne tdel_self tdel_ne) in
theorem upd_apply_self {α : Type} (f : Nat → Option α) (i : Nat) (v : α) :
    upd f i v i = some v := MutHeap.upd_self f i v

theorem upd_apply_ne {α : Type} (f : Nat → Option α) (i : Nat) (v : α)
    {j : Nat} (h : j ≠ i) : upd f i v j = f j := MutHeap.upd_ne f i v h

/-! ## Association-list facts for the ordered-map-backed strategy -/

/-- Keys of an association list are pairwise distinct (true of any state of
a `BTreeMap`). -/
def keysNodup {α : Type} (l : List (Nat × α)) : Prop := (l.map Prod.fst).Nodup

theorem alookup_mem {α : Type} :
    ∀ {l : List (Nat × α)} {k : Nat} {v : α},
      alookup l k = some v → (k, v) ∈ l := by
  intro l
  induction l with
  | nil => intro k v h; exact Option.noConfusion h
  | cons p rest ih =>
    intro k v h
    unfold alookup at h
    by_cases hp : p.1 = k
    · rw [if_pos hp] at h
      have hv : p.2 = v := Option.some.inj h
      have hpv : (k, v) = p := by rw [← hp, ← hv]
      rw [hpv]
      exact List.mem_cons_self _ _
    · rw [if_neg hp] at h
      exact List.mem_cons_of_mem _ (ih h)

theorem mem_alookup {α : Type} :
    ∀ {l : List (Nat × α)} {k : Nat} {v : α},
      keysNodup l → (k, v) ∈ l → alookup l k = some v := by
  intro l
  induction l with
  | nil => intro k v _ h; exact absurd h (List.not_mem_nil _)
  | cons p rest ih =>
    intro k v hnd hm
    have hnd2 : keysNodup rest := (List.nodup_cons.mp hnd).2
    unfold alookup
    rcases List.mem_cons.mp hm with he | hm2
    · rw [← he]
      rw [if_pos rfl]
    · by_cases hp : p.1 = k
      · exfalso
        have : k ∈ rest.map Prod.fst := List.mem_map_of_mem Prod.fst hm2
        have hninfst := (List.nodup_cons.mp hnd).1
        rw [hp] at hninfst
        exact hninfst this
      · rw [if_neg hp]
        exact ih hnd2 hm2

theorem alookup_filter {α : Type} (P : Nat → Bool) :
    ∀ (l : List (Nat × α)) (k : Nat),
      alookup (l.filter (fun p => P p.1)) k =
        if P k then alookup l k else none := by
  intro l
  induction l with
  | nil => intro k; cases hP : P k <;> simp [alookup, hP]
  | cons p rest ih =>
    intro k
    by_cases hp1 : P p.1
    · rw [List.filter_cons_of_pos (by simpa using hp1)]
      by_cases hpk : p.1 = k
      · have hPk : P k = true := by rw [← hpk]; simpa using hp1
        simp [alookup, hpk, hPk]
      · simp [alookup, hpk, ih k]
    · rw [List.filter_cons_of_neg (by simpa using hp1)]
      by_cases hpk : p.1 = k
      · have hPk : P k = false := by rw [← hpk]; simpa using hp1
        rw [ih k]
        simp [alookup, hpk, hPk]
      · simp [alookup, hpk, ih k]

theorem alookup_aremove_self {α : Type} (l : List (Nat × α)) (k : Nat) :
    alookup (aremove l k) k = none := by
  have h2 : alookup (aremove l k) k =
      if decide (k ≠ k) = true then alookup l k else none :=
    alookup_filter (fun x => decide (x ≠ k)) l k
  rw [h2]
  simp

theorem alookup_aremove_ne {α : Type} (l : List (Nat × α)) {k k2 : Nat}
    (h : k2 ≠ k) : alookup (aremove l k) k2 = alookup l k2 := by
  have h2 : alookup (aremove l k) k2 =
      if decide (k2 ≠ k) = true then alookup l k2 else none :=
    alookup_filter (fun x => decide (x ≠ k)) l k2
  rw [h2]
  simp [h]

theorem alookup_ainsert_self {α : Type} (l : List (Nat × α)) (k : Nat) (v : α) :
    alookup (ainsert l k v) k = some v := by
  unfold ainsert alookup
  rw [if_pos rfl]

theorem alookup_ainsert_ne {α : Type} (l : List (Nat × α)) {k k2 : Nat} (v : α)
    (h : k2 ≠ k) : alookup (ainsert l k v) k2 = alookup l k2 := by
  have h1 : alookup (ainsert l k v) k2 =
      if k = k2 then some v else alookup (aremove l k) k2 := rfl
  rw [h1, if_neg (fun he => h he.symm)]
  exact alookup_aremove_ne l h

theorem keysNodup_filter {α : Type} (P : Nat × α → Bool) {l : List (Nat × α)}
    (h : keysNodup l) : keysNodup (l.filter P) :=
  List.Nodup.sublist (List.Sublist.map Prod.fst (List.filter_sublist l)) h

theorem keysNodup_aremove {α : Type} {l : List (Nat × α)} (k : Nat)
    (h : keysNodup l) : keysNodup (aremove l k) :=
  keysNodup_filter _ h

theorem keysNodup_ainsert {α : Type} {l : List (Nat × α)} (k : Nat) (v : α)
    (h : keysNodup l) : keysNodup (ainsert l k v) := by
  unfold ainsert keysNodup
  rw [List.map_cons]
  refine List.nodup_cons.mpr ⟨?_, keysNodup_aremove k h⟩
  intro hmem
  obtain ⟨p, hp, hpk⟩ := List.mem_map.mp hmem
  have := List.of_mem_filter hp
  rw [hpk] at this
  simp at this

theorem keysNodup_bucketAdd {index : List (Nat × List Nat)} (e item : Nat)
    (h : keysNodup index) : keysNodup (bucketAdd index e item) := by
  unfold bucketAdd
  cases alookup index e with
  | some b => exact keysNodup_ainsert _ _ h
  | none => exact keysNodup_ainsert _ _ h

theorem bucketAdd_lookup_ne {index : List (Nat × List Nat)} {e item e2 : Nat}
    (h : e2 ≠ e) : alookup (bucketAdd index e item) e2 = alookup index e2 := by
  unfold bucketAdd
  cases alookup index e with
  | some b => exact alookup_ainsert_ne _ _ h
  | none => exact alookup_ainsert_ne _ _ h

theorem bucketAdd_mem_self (index : List (Nat × List Nat)) (e item id : Nat) :
    (∃ b, alookup (bucketAdd index e item) e = some b ∧ id ∈ b) ↔
      (id = item ∨ ∃ b, alookup index e = some b ∧ id ∈ b) := by
  unfold bucketAdd
  cases hL : alookup index e with
  | some b =>
    constructor
    · rintro ⟨b2, hb2, hid⟩
      rw [alookup_ainsert_self] at hb2
      have hbb : (if item ∈ b then b else item :: b) = b2 := Option.some.inj hb2
      rw [← hbb] at hid
      by_cases hib : item ∈ b
      · rw [if_pos hib] at hid
        right; exact ⟨b, rfl, hid⟩
      · rw [if_neg hib] at hid
        rcases List.mem_cons.mp hid with hii | hib2
        · left; exact hii
        · right; exact ⟨b, rfl, hib2⟩
    · intro hcase
      refine ⟨(if item ∈ b then b else item :: b), by rw [alookup_ainsert_self], ?_⟩
      rcases hcase with hii | ⟨b2, hb2, hid⟩
      · by_cases hib : item ∈ b
        · rw [if_pos hib, hii]; exact hib
        · rw [if_neg hib, hii]; exact List.mem_cons_self _ _
      · have hbb : b = b2 := Option.some.inj hb2
        by_cases hib : item ∈ b
        · rw [if_pos hib, hbb]; exact hid
        · rw [if_neg hib]
          exact List.mem_cons_of_mem _ (by rw [hbb]; exact hid)
  | none =>
    constructor
    · rintro ⟨b2, hb2, hid⟩
      rw [alookup_ainsert_self] at hb2
      have hbb : [item] = b2 := Option.some.inj hb2
      rw [← hbb] at hid
      left
      rcases List.mem_cons.mp hid with hii | hn
      · exact hii
      · exact absurd hn (List.not_mem_nil _)
    · intro hcase
      refine ⟨[item], by rw [alookup_ainsert_self], ?_⟩
      rcases hcase with hii | ⟨b2, hb2, hid⟩
      · rw [hii]; exact List.mem_cons_self _ _
      · exact Option.noConfusion hb2

theorem bucketAdd_mem_ne {index : List (Nat × List Nat)} {e item e2 id : Nat}
    (h : e2 ≠ e) :
    (∃ b, alookup (bucketAdd index e item) e2 = some b ∧ id ∈ b) ↔
      ∃ b, alookup index e2 = some b ∧ id ∈ b := by
  constructor
  · rintro ⟨b, hb, h2⟩
    rw [bucketAdd_lookup_ne h] at hb
    exact ⟨b, hb, h2⟩
  · rintro ⟨b, hb, h2⟩
    exact ⟨b, by rw [bucketAdd_lookup_ne h]; exact hb, h2⟩

/-- Memberships after the old-bucket detachment step of
`TreeCleanup::insert` (remove `item` from its previous bucket, deleting the
bucket if now empty). -/
theorem removal_mem (index : List (Nat × List Nat)) (prev item : Nat)
    (bucket : List Nat)
    (hbk : alookup index prev = some bucket) (e2 id : Nat) :
    (∃ b, alookup
        (if (bucket.filter (fun x => decide (x ≠ item))).isEmpty
         then aremove index prev
         else ainsert index prev (bucket.filter (fun x => decide (x ≠ item))))
        e2 = some b ∧ id ∈ b) ↔
      (if e2 = prev then (id ∈ bucket ∧ id ≠ item)
       else ∃ b, alookup index e2 = some b ∧ id ∈ b) := by
  have hmemf : ∀ x, x ∈ bucket.filter (fun y => decide (y ≠ item)) ↔
      x ∈ bucket ∧ x ≠ item := by
    intro x
    rw [List.mem_filter]
    simp
  by_cases hbe : (bucket.filter (fun x => decide (x ≠ item))).isEmpty
  · rw [if_pos hbe]
    have hnil : bucket.filter (fun x => decide (x ≠ item)) = [] :=
      List.isEmpty_iff.mp hbe
    by_cases he : e2 = prev
    · rw [if_pos he, he]
      constructor
      · rintro ⟨b, hb, _⟩
        rw [alookup_aremove_self] at hb
        exact Option.noConfusion hb
      · rintro ⟨hib, hni⟩
        exfalso
        have : id ∈ bucket.filter (fun x => decide (x ≠ item)) :=
          (hmemf id).mpr ⟨hib, hni⟩
        rw [hnil] at this
        exact List.not_mem_nil _ this
    · rw [if_neg he]
      constructor
      · rintro ⟨b, hb, hid⟩
        rw [alookup_aremove_ne _ he] at hb
        exact ⟨b, hb, hid⟩
      · rintro ⟨b, hb, hid⟩
        exact ⟨b, by rw [alookup_aremove_ne _ he]; exact hb, hid⟩
  · rw [if_neg hbe]
    by_cases he : e2 = prev
    · rw [if_pos he, he]
      constructor
      · rintro ⟨b, hb, hid⟩
        rw [alookup_ainsert_self] at hb
        have hbb : bucket.filter (fun x => decide (x ≠ item)) = b :=
          Option.some.inj hb
        rw [← hbb] at hid
        exact (hmemf id).mp hid
      · rintro ⟨hib, hni⟩
        exact ⟨bucket.filter (fun x => decide (x ≠ item)),
          by rw [alookup_ainsert_self], (hmemf id).mpr ⟨hib, hni⟩⟩
    · rw [if_neg he]
      constructor
      · rintro ⟨b, hb, hid⟩
        rw [alookup_ainsert_ne _ _ he] at hb
        exact ⟨b, hb, hid⟩
      · rintro ⟨b, hb, hid⟩
        exact ⟨b, by rw [alookup_ainsert_ne _ _ he]; exact hb, hid⟩

/-- The `TreeCleanup` state invariant: the ordered map has distinct keys,
and the hash map records expiry `e` for `id` exactly when `id` sits in the
bucket keyed `e`. -/
def TInv (st : TreeCleanup) : Prop :=
  keysNodup st.expiration_index ∧
  ∀ id e, st.expiration_times id = some e ↔
    ∃ b, alookup st.expiration_index e = some b ∧ id ∈ b

theorem TInv_empty : TInv TreeCleanup.empty := by
  constructor
  · exact List.nodup_nil
  · intro id e
    constructor
    · intro h; exact Option.noConfusion h
    · rintro ⟨b, hb, _⟩; exact Option.noConfusion hb

theorem mem_foldr_append {l : List (Nat × List Nat)} {id : Nat} :
    id ∈ l.foldr (fun p acc => p.2 ++ acc) [] ↔ ∃ p ∈ l, id ∈ p.2 := by
  induction l with
  | nil => simp
  | cons p rest ih =>
    simp only [List.foldr_cons, List.mem_append, ih, List.mem_cons]
    constructor
    · rintro (h | ⟨q, hq, hiq⟩)
      · exact ⟨p, Or.inl rfl, h⟩
      · exact ⟨q, Or.inr hq, hiq⟩
    · rintro ⟨q, hq | hq, hiq⟩
      · left; rw [hq] at hiq; exact hiq
      · right; exact ⟨q, hq, hiq⟩

/-- `TreeCleanup::insert` never panics from an invariant state, and
afterwards the item has exactly one live record, carrying the new expiry. -/
theorem TreeCleanup.insert_spec {st : TreeCleanup} (hinv : TInv st)
    (now item dur : Nat) :
    ∃ st2, TreeCleanup.insert st now item dur = some st2 ∧ TInv st2 ∧
      st2.expiration_times item = some (now + dur) ∧
      ∀ e b, alookup st2.expiration_index e = some b →
        (item ∈ b ↔ e = now + dur) := by
  obtain ⟨hnd, hiff⟩ := hinv
  unfold TreeCleanup.insert
  cases hprev : st.expiration_times item with
  | none =>
    refine ⟨_, rfl, ⟨keysNodup_bucketAdd _ _ hnd, ?_⟩, upd_apply_self _ _ _, ?_⟩
    · intro id e
      dsimp only
      by_cases hid : id = item
      · subst hid
        rw [upd_apply_self]
        by_cases he : e = now + dur
        · subst he
          rw [bucketAdd_mem_self]
          constructor
          · intro _; left; rfl
          · intro _; rfl
        · constructor
          · intro hsome
            exact absurd (Option.some.inj hsome) (fun hh => he hh.symm)
          · rintro ⟨b, hb, hid2⟩
            rw [bucketAdd_lookup_ne he] at hb
            have := (hiff id e).mpr ⟨b, hb, hid2⟩
            rw [hprev] at this
            exact Option.noConfusion this
      · rw [upd_apply_ne _ _ _ hid]
        by_cases he : e = now + dur
        · subst he
          rw [bucketAdd_mem_self]
          constructor
          · intro ht; right; exact (hiff id _).mp ht
          · rintro (hii | hold)
            · exact absurd hii hid
            · exact (hiff id _).mpr hold
        · rw [bucketAdd_mem_ne he]
          exact hiff id e
    · intro e b hb
      dsimp only at hb
      by_cases he : e = now + dur
      · subst he
        constructor
        · intro _; rfl
        · intro _
          have hall := (bucketAdd_mem_self st.expiration_index (now + dur)
            item item).mpr (Or.inl rfl)
          obtain ⟨b2, hb2, hib2⟩ := hall
          rw [hb] at hb2
          have : b = b2 := Option.some.inj hb2
          rw [this]
          exact hib2
      · constructor
        · intro hib
          exfalso
          rw [bucketAdd_lookup_ne he] at hb
          have := (hiff item e).mpr ⟨b, hb, hib⟩
          rw [hprev] at this
          exact Option.noConfusion this
        · intro habs; exact absurd habs he
  | some prev =>
    obtain ⟨bucket, hbk, hitem⟩ := (hiff item prev).mp hprev
    dsimp only
    rw [hbk]
    refine ⟨_, rfl, ?_, upd_apply_self _ _ _, ?_⟩
    · constructor
      · apply keysNodup_bucketAdd
        by_cases hbe : (bucket.filter (fun x => decide (x ≠ item))).isEmpty
        · rw [if_pos hbe]; exact keysNodup_aremove _ hnd
        · rw [if_neg hbe]; exact keysNodup_ainsert _ _ hnd
      · intro id e
        dsimp only
        by_cases hid : id = item
        · subst hid
          rw [upd_apply_self]
          by_cases he : e = now + dur
          · subst he
            rw [bucketAdd_mem_self]
            constructor
            · intro _; left; rfl
            · intro _; rfl
          · constructor
            · intro hsome
              exact absurd (Option.some.inj hsome) (fun hh => he hh.symm)
            · rintro ⟨b, hb, hid2⟩
              rw [bucketAdd_lookup_ne he] at hb
              have hrm := (removal_mem st.expiration_index prev id bucket hbk
                e id).mp ⟨b, hb, hid2⟩
              by_cases hep : e = prev
              · rw [if_pos hep] at hrm
                exact absurd rfl hrm.2
              · rw [if_neg hep] at hrm
                have hsp := (hiff id e).mpr hrm
                rw [hprev] at hsp
                exact absurd (Option.some.inj hsp).symm hep
        · rw [upd_apply_ne _ _ _ hid]
          by_cases he : e = now + dur
          · subst he
            rw [bucketAdd_mem_self]
            constructor
            · intro ht
              right
              rw [removal_mem st.expiration_index prev item bucket hbk _ id]
              by_cases hep : now + dur = prev
              · rw [if_pos hep]
                refine ⟨?_, hid⟩
                have := (hiff id _).mp ht
                rw [hep] at this
                obtain ⟨b2, hb2, hib2⟩ := this
                rw [hbk] at hb2
                have hbb : bucket = b2 := Option.some.inj hb2
                rw [hbb]
                exact hib2
              · rw [if_neg hep]
                exact (hiff id _).mp ht
            · rintro (hii | hold)
              · exact absurd hii hid
              · rw [removal_mem st.expiration_index prev item bucket hbk _ id] at hold
                by_cases hep : now + dur = prev
                · rw [if_pos hep] at hold
                  rw [hep]
                  exact (hiff id prev).mpr ⟨bucket, hbk, hold.1⟩
                · rw [if_neg hep] at hold
                  exact (hiff id _).mpr hold
          · rw [bucketAdd_mem_ne he,
              removal_mem st.expiration_index prev item bucket hbk e id]
            by_cases hep : e = prev
            · rw [if_pos hep]
              constructor
              · intro ht
                refine ⟨?_, hid⟩
                have hsome := (hiff id e).mp ht
                rw [hep] at hsome
                obtain ⟨b2, hb2, hib2⟩ := hsome
                rw [hbk] at hb2
                have hbb : bucket = b2 := Option.some.inj hb2
                rw [hbb]
                exact hib2
              · rintro ⟨hib, _⟩
                rw [hep]
                exact (hiff id prev).mpr ⟨bucket, hbk, hib⟩
            · rw [if_neg hep]
              exact hiff id e
    · intro e b hb
      dsimp only at hb
      by_cases he : e = now + dur
      · subst he
        constructor
        · intro _; rfl
        · intro _
          have hall := (bucketAdd_mem_self
            (if (bucket.filter (fun x => decide (x ≠ item))).isEmpty
             then aremove st.expiration_index prev
             else ainsert st.expiration_index prev
               (bucket.filter (fun x => decide (x ≠ item))))
            (now + dur) item item).mpr (Or.inl rfl)
          obtain ⟨b2, hb2, hib2⟩ := hall
          rw [hb] at hb2
          have hbb : b = b2 := Option.some.inj hb2
          rw [hbb]
          exact hib2
      · constructor
        · intro hib
          exfalso
          rw [bucketAdd_lookup_ne he] at hb
          have hrm := (removal_mem st.expiration_index prev item bucket hbk
            e item).mp ⟨b, hb, hib⟩
          by_cases hep : e = prev
          · rw [if_pos hep] at hrm
            exact hrm.2 rfl
          · rw [if_neg hep] at hrm
            have := (hiff item e).mpr hrm
            rw [hprev] at this
            exact hep (Option.some.inj this).symm
        · intro habs; exact absurd habs he

/-- Incremental cleanup preserves the `TreeCleanup` invariant. -/
theorem TInv_clean {st : TreeCleanup} (hinv : TInv st) (thr : Nat) :
    TInv (st.incremental_clean thr) := by
  obtain ⟨hnd, hiff⟩ := hinv
  constructor
  · exact keysNodup_filter _ hnd
  · intro id e
    dsimp only [TreeCleanup.incremental_clean]
    have hexp : id ∈ (st.expiration_index.filter
        (fun p => decide (p.1 < thr))).foldr (fun p acc => p.2 ++ acc) [] ↔
        ∃ e2 b, e2 < thr ∧ alookup st.expiration_index e2 = some b ∧ id ∈ b := by
      rw [mem_foldr_append]
      constructor
      · rintro ⟨p, hp, hip⟩
        have hm := List.mem_filter.mp hp
        refine ⟨p.1, p.2, by simpa using hm.2, ?_, hip⟩
        exact mem_alookup hnd (by rw [Prod.mk.eta]; exact hm.1)
      · rintro ⟨e2, b, hlt, hlk, hib⟩
        exact ⟨(e2, b), List.mem_filter.mpr ⟨alookup_mem hlk, by simpa using hlt⟩, hib⟩
    have hfil : alookup (st.expiration_index.filter
        (fun p => decide (¬ p.1 < thr))) e =
        if decide (¬ e < thr) = true then alookup st.expiration_index e
        else none :=
      alookup_filter (fun x => decide (¬ x < thr)) st.expiration_index e
    by_cases hmem : id ∈ (st.expiration_index.filter
        (fun p => decide (p.1 < thr))).foldr (fun p acc => p.2 ++ acc) []
    · rw [if_pos hmem]
      constructor
      · intro h; exact Option.noConfusion h
      · rintro ⟨b, hb, hib⟩
        rw [hfil] at hb
        by_cases hth : e < thr
        · rw [if_neg (by simpa using hth)] at hb
          exact Option.noConfusion hb
        · rw [if_pos (by simpa using hth)] at hb
          obtain ⟨e2, b2, hlt2, hlk2, hib2⟩ := hexp.mp hmem
          have h1 := (hiff id e).mpr ⟨b, hb, hib⟩
          have h2 := (hiff id e2).mpr ⟨b2, hlk2, hib2⟩
          rw [h1] at h2
          have hee : e = e2 := Option.some.inj h2
          rw [← hee] at hlt2
          exact absurd hlt2 hth
    · rw [if_neg hmem]
      constructor
      · intro ht
        obtain ⟨b, hb, hib⟩ := (hiff id e).mp ht
        have hth : ¬ e < thr := by
          intro hlt
          exact hmem (hexp.mpr ⟨e, b, hlt, hb, hib⟩)
        refine ⟨b, ?_, hib⟩
        rw [hfil, if_pos (by simpa using hth)]
        exact hb
      · rintro ⟨b, hb, hib⟩
        rw [hfil] at hb
        by_cases hth : e < thr
        · rw [if_neg (by simpa using hth)] at hb
          exact Option.noConfusion hb
        · rw [if_pos (by simpa using hth)] at hb
          exact (hiff id e).mpr ⟨b, hb, hib⟩

/-- State-level trace runner for the ordered-map-backed strategy (same steps
as `runTreeCleanup`, returning the final clock and state). -/
def runTreeState : FakeClock → TreeCleanup → List SOp → Option (FakeClock × TreeCleanup)
  | c, st, [] => some (c, st)
  | c, st, .ins item dur :: rest =>
    let r := c.now
    match TreeCleanup.insert st r.1 item dur with
    | some st2 => runTreeState r.2 st2 rest
    | none => none
  | c, st, .adv d :: rest => runTreeState (c.advance d) st rest
  | c, st, .qry item :: rest =>
    let r := c.now
    runTreeState r.2 (st.contains r.1 item).2 rest

theorem runTreeState_TInv :
    ∀ (ops : List SOp) (c : FakeClock) (st : TreeCleanup) c2 st2,
      runTreeState c st ops = some (c2, st2) → TInv st → TInv st2 := by
  intro ops
  induction ops with
  | nil =>
    intro c st c2 st2 hr hv
    have hss := Option.some.inj hr
    have : st = st2 := congrArg Prod.snd hss
    rw [← this]; exact hv
  | cons op rest ih =>
    intro c st c2 st2 hr hv
    cases op with
    | ins item dur =>
      rw [runTreeState] at hr
      obtain ⟨stx, hx, hvx, _, _⟩ := TreeCleanup.insert_spec hv c.now.1 item dur
      rw [hx] at hr
      dsimp only at hr
      exact ih _ _ _ _ hr hvx
    | adv d => exact ih _ _ _ _ hr hv
    | qry item => exact ih _ _ _ _ hr (TInv_clean hv c.now.1)

theorem runTreeState_total :
    ∀ (ops : List SOp) (c : FakeClock) (st : TreeCleanup), TInv st →
      (runTreeState c st ops).isSome := by
  intro ops
  induction ops with
  | nil => intro c st _; rfl
  | cons op rest ih =>
    intro c st hv
    cases op with
    | ins item dur =>
      rw [runTreeState]
      obtain ⟨stx, hx, hvx, _, _⟩ := TreeCleanup.insert_spec hv c.now.1 item dur
      rw [hx]
      dsimp only
      exact ih _ _ hvx
    | adv d => exact ih _ _ hv
    | qry item => exact ih _ _ (TInv_clean hv c.now.1)

namespace HeapCleanup

/-- Each iteration of the cleanup loop pops the heap, so the heap size
bounds the iteration count: extra fuel never changes the result. -/
theorem cleanLoop_fuel_succ :
    ∀ fuel (st : HeapCleanup) thr, st.expiration_index.size ≤ fuel →
      cleanLoop fuel st thr = cleanLoop (fuel + 1) st thr := by
  intro fuel
  induction fuel with
  | zero =>
    intro st thr hf
    have hsz : st.expiration_index.size = 0 := by omega
    have hpk : st.expiration_index.peek_max = none := by
      unfold MutHeap.peek_max
      rw [if_pos hsz]
    conv_rhs => rw [cleanLoop]
    rw [hpk]
    rfl
  | succ n ih =>
    intro st thr hf
    conv_lhs => rw [cleanLoop]
    conv_rhs => rw [cleanLoop]
    cases hpk : st.expiration_index.peek_max with
    | none => rfl
    | some exp =>
      dsimp only
      by_cases ht : exp.time ≤ thr
      · rw [if_pos ht, if_pos ht]
        cases hpm : MutHeap.pop_max expLt st.expiration_index with
        | none => rfl
        | some r =>
          obtain ⟨rx, rs⟩ := r
          dsimp only
          apply ih
          have hne : st.expiration_index.size ≠ 0 := by
            intro h0
            unfold MutHeap.peek_max at hpk
            rw [if_pos h0] at hpk
            exact Option.noConfusion hpk
          have hsz := MutHeap.pop_max_size expLt hpm
          show rs.size ≤ n
          omega
      · rw [if_neg ht, if_neg ht]

theorem cleanLoop_fuel_ge (st : HeapCleanup) (thr : Nat) :
    ∀ fuel, st.expiration_index.size + 1 ≤ fuel →
      cleanLoop fuel st thr = incremental_clean st thr := by
  intro fuel hf
  induction fuel, hf using Nat.le_induction with
  | base => rfl
  | succ n hn ih =>
    rw [← cleanLoop_fuel_succ n st thr (by omega)]
    exact ih

end HeapCleanup

/-! ## Claim theorems -/

/-- C1: the claim states that `increment(h, f)`/`decrement(h, f)` always
apply `f` to exactly the item originally associated with the handle `h`,
in particular after `pop_max` relocates the last slot into the root.  The
code violates this: `pop_max` never rewrites the relocated wrapper's
position cell (it relies on a `percolate_down` swap that need not happen),
so the handle issued for the item `5` (tag 1) still reads index 1, and
`increment` applies `f` to the unrelated item `3` (tag 2): after the trace
below, slot 0 holds `(103, tag 2)` — the item inserted as `3` was mutated —
while the handle's own item `(5, tag 1)` is untouched at slot 1. -/
theorem claim_C1_increment_wrong_item :
    (runH MutHeap.ltb (MutHeap.empty Nat)
      [HOp.ins 10, HOp.ins 5, HOp.pop, HOp.ins 3,
       HOp.inc 1 (fun x => x + 100)]).map (fun s => (s.arr 0, s.arr 1)) =
    some (some (103, 2), some (5, 1)) := by decide

/-- C2: the claim states that the mut-heap-backed and ordered-map-backed
strategies answer `contains` identically on every trace.  They diverge when
a query's clock reading equals an item's expiry exactly: inserting at clock
reading 1 with TTL 5 gives expiry 6, and the query below reads the clock at
exactly 6; the heap strategy removes records with `time ≤ now` (answering
`false`) while the tree strategy's `split_off(&threshold)` keeps the bucket
at exactly `now` (answering `true`). -/
theorem claim_C2_divergence :
    runHeapCleanup FakeClock.start HeapCleanup.empty
      [SOp.ins 0 5, SOp.adv 4, SOp.qry 0] = some [false] ∧
    runTreeCleanup FakeClock.start TreeCleanup.empty
      [SOp.ins 0 5, SOp.adv 4, SOp.qry 0] = some [true] := by
  constructor
  · decide
  · decide

/-- C3: the claim states that every strategy answers `false` at query times
`≥ t0 + d`, in particular at exactly `t0 + d`.  The ordered-map-backed
strategy answers `true` at exactly `t0 + d` (its cleanup only removes
buckets with key strictly below `now`), while the redactor and the
mut-heap-backed strategy answer `false` on the same trace, as the claim
demands. -/
theorem claim_C3_tree_boundary :
    runTreeCleanup FakeClock.start TreeCleanup.empty
      [SOp.ins 0 5, SOp.adv 4, SOp.qry 0] = some [true] ∧
    runRedactor FakeClock.start Redactor.empty
      [SOp.ins 0 5, SOp.adv 4, SOp.qry 0] = [false] ∧
    runHeapCleanup FakeClock.start HeapCleanup.empty
      [SOp.ins 0 5, SOp.adv 4, SOp.qry 0] = some [false] := by
  refine ⟨by decide, by decide, by decide⟩

/-- C4: after any successful trace of `insert`, `pop_max`, `increment` with
non-decreasing mutators and `decrement` with non-increasing mutators,
`peek_max` returns `none` exactly on the empty heap, and otherwise returns
a currently-held item that dominates every currently-held item. -/
theorem claim_C4_peek_max_invariant {T : Type} [LinearOrder T]
    (ops : List (HOp T)) (s : MutHeap T)
    (hok : ∀ op ∈ ops, MutHeap.OpOK op)
    (hrun : runH MutHeap.ltb (MutHeap.empty T) ops = some s) :
    (MutHeap.peek_max s = none ↔ s.size = 0) ∧
    (∀ m, MutHeap.peek_max s = some m →
      (∃ w, s.arr 0 = some w ∧ w.1 = m) ∧
      ∀ i w, i < s.size → s.arr i = some w → w.1 ≤ m) := by
  obtain ⟨hsome, hheap⟩ :=
    MutHeap.runH_WF ops (MutHeap.empty T) s hok hrun MutHeap.empty_WF
  constructor
  · constructor
    · intro hpk
      by_contra h0
      obtain ⟨w, hw⟩ := Option.isSome_iff_exists.mp (hsome 0 (by omega))
      unfold MutHeap.peek_max at hpk
      rw [if_neg h0, hw] at hpk
      exact Option.noConfusion hpk
    · intro h0
      unfold MutHeap.peek_max
      rw [if_pos h0]
  · intro m hpk
    unfold MutHeap.peek_max at hpk
    by_cases h0 : s.size = 0
    · rw [if_pos h0] at hpk
      exact Option.noConfusion hpk
    · rw [if_neg h0] at hpk
      cases hw : s.arr 0 with
      | none => rw [hw] at hpk; exact Option.noConfusion hpk
      | some w =>
        rw [hw] at hpk
        have hm : w.1 = m := Option.some.inj hpk
        constructor
        · exact ⟨w, rfl, hm⟩
        · intro i wi hi hwi
          rw [← hm]
          exact MutHeap.heapProp_root_max hheap hsome hw i wi hi hwi

/-- Final state of a small heap trace, used to witness `C4`. -/
def c4state : MutHeap Nat :=
  (runH MutHeap.ltb (MutHeap.empty Nat)
    [HOp.ins 10, HOp.ins 20, HOp.inc 0 (fun x => x + 100)]).getD
    (MutHeap.empty Nat)

theorem claim_C4_witness :
    (MutHeap.peek_max c4state = none ↔ c4state.size = 0) ∧
    (∀ m, MutHeap.peek_max c4state = some m →
      (∃ w, c4state.arr 0 = some w ∧ w.1 = m) ∧
      ∀ i w, i < c4state.size → c4state.arr i = some w → w.1 ≤ m) :=
  claim_C4_peek_max_invariant
    [HOp.ins 10, HOp.ins 20, HOp.inc 0 (fun x => x + 100)] c4state
    (by
      intro op hop
      fin_cases hop
      · trivial
      · trivial
      · intro x; exact Nat.le_add_right x 100)
    (by rfl)

/-- C5: the claim states that every slot's `HandleCell` always holds the
slot's current index.  After inserting 10 and 5 and popping the max, the
remaining wrapper `(5, tag 1)` sits at slot 0 while its cell still holds 1
(the swap in `pop_max` moves the wrapper without rewriting its cell, and
`percolate_down` performed no swap to fix it). -/
theorem claim_C5_cell_desync :
    (runH MutHeap.ltb (MutHeap.empty Nat)
      [HOp.ins 10, HOp.ins 5, HOp.pop]).map
      (fun s => (s.size, s.arr 0, s.cells 1)) =
    some (1, some (5, 1), some 1) := by decide

/-- C6 counterexample: the claim states that for every strategy an insert
over an existing id removes the old backing record.  The `BinaryHeap`-backed
variant (`src/heap_cleanup.rs`) pushes a second record instead: after
re-inserting id 0 its backing heap holds two live records for id 0 (times
52 and 6). -/
theorem claim_C6_counterexample :
    ((HeapCleanupBinary.empty.insert 1 0 5).insert 2 0 50).expiration_index.length = 2 ∧
    ((HeapCleanupBinary.empty.insert 1 0 5).insert 2 0 50).expiration_index.map
      Expiration.item = [0, 0] ∧
    ((HeapCleanupBinary.empty.insert 1 0 5).insert 2 0 50).expiration_index.map
      Expiration.time = [52, 6] := by
  refine ⟨by decide, by decide, by decide⟩

/-- C6 amended: for the ordered-map-backed strategy the claim holds — after
inserting an id from any reachable state, the hash map carries the latest
expiry and the id sits in exactly the bucket keyed by that expiry (the old
record is gone).  (The `BinaryHeap`-backed variant keeps the superseded
record alongside the new one, as the counterexample shows, compensating
with a supersession check during cleanup; the mut-heap variant mutates its
single record in place via the stored handle, which the `pop_max` cell bug
of C1/C5 can misdirect.) -/
theorem claim_C6_amended (ops : List SOp) (c c2 : FakeClock)
    (st st2 : TreeCleanup) (now item dur : Nat)
    (hrun : runTreeState c TreeCleanup.empty ops = some (c2, st))
    (hins : TreeCleanup.insert st now item dur = some st2) :
    st2.expiration_times item = some (now + dur) ∧
    ∀ e b, alookup st2.expiration_index e = some b →
      (item ∈ b ↔ e = now + dur) := by
  have hinv := runTreeState_TInv ops c _ c2 st hrun TInv_empty
  obtain ⟨stx, hx, _, hts, hbk⟩ := TreeCleanup.insert_spec hinv now item dur
  rw [hins] at hx
  have hss : st2 = stx := Option.some.inj hx
  rw [hss]
  exact ⟨hts, hbk⟩

/-- Result of one insert on the empty ordered-map-backed state, used to
witness the amended `C6`. -/
def c6st : TreeCleanup :=
  (TreeCleanup.insert TreeCleanup.empty 1 0 5).getD TreeCleanup.empty

theorem claim_C6_amended_witness :
    c6st.expiration_times 0 = some 6 ∧
    ∀ e b, alookup c6st.expiration_index e = some b →
      ((0 : Nat) ∈ b ↔ e = 6) :=
  claim_C6_amended [] FakeClock.start FakeClock.start TreeCleanup.empty c6st
    1 0 5 (by rfl) (by rfl)

/-- C7: once an item has been removed by `pop_max`, every later use of its
handle — after any further successful operations — fails the weak-reference
upgrade and aborts with the stale-handle panic, mutating nothing. -/
theorem claim_C7_stale_rejected {T : Type} (lt : T → T → Bool)
    (ops1 ops2 : List (HOp T)) (s s1 s2 : MutHeap T) (x : T)
    (root : T × Nat) (f g : T → T)
    (hrun1 : runH lt (MutHeap.empty T) ops1 = some s)
    (hroot : s.arr 0 = some root)
    (hpop : MutHeap.pop_max lt s = some (x, s1))
    (hrun2 : runH lt s1 ops2 = some s2) :
    MutHeap.increment lt s2 root.2 f = .error .stale ∧
    MutHeap.decrement lt s2 root.2 g = .error .stale := by
  have hinv : MutHeap.HInv s :=
    MutHeap.runH_HInv lt ops1 _ s hrun1 MutHeap.empty_HInv
  have hdead1 : MutHeap.Dead root.2 s1 :=
    MutHeap.pop_Dead_root lt hroot hpop hinv
  have hdead2 : MutHeap.Dead root.2 s2 :=
    MutHeap.runH_Dead lt ops2 s1 s2 hrun2 hdead1
  exact ⟨MutHeap.increment_stale lt hdead2 f,
    MutHeap.decrement_stale lt hdead2 g⟩

/-- Heap after inserting 5, used to witness `C7`. -/
def c7s : MutHeap Nat :=
  (runH MutHeap.ltb (MutHeap.empty Nat) [HOp.ins 5]).getD (MutHeap.empty Nat)

/-- Heap after popping the 5 back out, used to witness `C7`. -/
def c7s1 : MutHeap Nat :=
  ((MutHeap.pop_max MutHeap.ltb c7s).getD (0, MutHeap.empty Nat)).2

theorem claim_C7_witness :
    MutHeap.increment MutHeap.ltb c7s1 0 (fun x => x) = .error .stale ∧
    MutHeap.decrement MutHeap.ltb c7s1 0 (fun x => x) = .error .stale :=
  claim_C7_stale_rejected MutHeap.ltb [HOp.ins 5] [] c7s c7s1 c7s1 5 (5, 0)
    (fun x => x) (fun x => x) (by rfl) (by rfl) (by rfl) (by rfl)

/-- C8: the claim states that re-inserting an already-expired but
not-yet-cleaned item always succeeds with a fresh expiry.  In the trace
below, cleanup pops the expired item 1 and relocates item 2's record to the
root with a stale position cell (out of range); after item 2 itself expires
(expiry 102, clock beyond 200) and before any cleanup touches it, the
re-insert of item 2 resolves the stale cell to an out-of-range index and
panics instead of succeeding (`none`); the same trace without the final
re-insert runs fine, and the ordered-map-backed strategy accepts the full
trace, re-inserting the expired item as the claim demands. -/
theorem claim_C8_expired_reinsert_panic :
    runHeapCleanup FakeClock.start HeapCleanup.empty
      [SOp.ins 1 3, SOp.ins 2 100, SOp.adv 10, SOp.qry 3, SOp.adv 200,
       SOp.ins 2 50] = none ∧
    runHeapCleanup FakeClock.start HeapCleanup.empty
      [SOp.ins 1 3, SOp.ins 2 100, SOp.adv 10, SOp.qry 3, SOp.adv 200] =
      some [false] ∧
    runTreeCleanup FakeClock.start TreeCleanup.empty
      [SOp.ins 1 3, SOp.ins 2 100, SOp.adv 10, SOp.qry 3, SOp.adv 200,
       SOp.ins 2 50, SOp.qry 2] = some [false, true] := by
  refine ⟨by decide, by decide, by decide⟩

/-- C9: each loop terminates within a fuel bounded by the structure's size:
`percolate_up` within `idx + 1` steps, `percolate_down` within `size + 1`
steps, and the cleanup loop within `heap size + 1` iterations (each
iteration pops, shrinking the heap), so any larger fuel computes the same
result as the canonical run and `insert`/`contains` always return. -/
theorem claim_C9_loops_terminate {T : Type} (lt : T → T → Bool)
    (s : MutHeap T) (idx fuel : Nat) (st : HeapCleanup) (thr fuel2 : Nat) :
    (idx + 1 ≤ fuel →
      MutHeap.percolate_up lt fuel s idx = MutHeap.pUp lt s idx) ∧
    (s.size + 1 ≤ fuel →
      MutHeap.percolate_down lt fuel s idx = MutHeap.pDown lt s idx) ∧
    (st.expiration_index.size + 1 ≤ fuel2 →
      HeapCleanup.cleanLoop fuel2 st thr = st.incremental_clean thr) :=
  ⟨fun h => MutHeap.percolate_up_fuel_ge lt s idx fuel h,
   fun h => MutHeap.percolate_down_fuel_ge lt s idx fuel h,
   fun h => HeapCleanup.cleanLoop_fuel_ge st thr fuel2 h⟩

theorem claim_C9_witness :
    (MutHeap.percolate_up MutHeap.ltb 5 (MutHeap.empty Nat) 0 =
      MutHeap.pUp MutHeap.ltb (MutHeap.empty Nat) 0) ∧
    (MutHeap.percolate_down MutHeap.ltb 5 (MutHeap.empty Nat) 0 =
      MutHeap.pDown MutHeap.ltb (MutHeap.empty Nat) 0) ∧
    (HeapCleanup.cleanLoop 7 HeapCleanup.empty 0 =
      HeapCleanup.empty.incremental_clean 0) :=
  ⟨(claim_C9_loops_terminate MutHeap.ltb (MutHeap.empty Nat) 0 5
      HeapCleanup.empty 0 7).1 (by decide),
   (claim_C9_loops_terminate MutHeap.ltb (MutHeap.empty Nat) 0 5
      HeapCleanup.empty 0 7).2.1 (by decide),
   (claim_C9_loops_terminate MutHeap.ltb (MutHeap.empty Nat) 0 5
      HeapCleanup.empty 0 7).2.2 (by decide)⟩

/-- C10: in every reachable `TreeCleanup` state the hash map records expiry
`e` for an id exactly when the id sits in the bucket keyed `e`; hence each
id sits in at most one bucket, and `insert` — whose `expect` fires only if
a previous expiry has no registered bucket — can never panic. -/
theorem claim_C10_tree_invariant (ops : List SOp) (c c2 : FakeClock)
    (st : TreeCleanup)
    (hrun : runTreeState c TreeCleanup.empty ops = some (c2, st)) :
    (∀ id e, st.expiration_times id = some e ↔
      ∃ b, alookup st.expiration_index e = some b ∧ id ∈ b) ∧
    (∀ id e1 e2 b1 b2, alookup st.expiration_index e1 = some b1 → id ∈ b1 →
      alookup st.expiration_index e2 = some b2 → id ∈ b2 → e1 = e2) ∧
    (∀ now item dur, (TreeCleanup.insert st now item dur).isSome) := by
  have hinv := runTreeState_TInv ops c _ c2 st hrun TInv_empty
  refine ⟨hinv.2, ?_, ?_⟩
  · intro id e1 e2 b1 b2 h1 hm1 h2 hm2
    have hs1 := (hinv.2 id e1).mpr ⟨b1, h1, hm1⟩
    have hs2 := (hinv.2 id e2).mpr ⟨b2, h2, hm2⟩
    rw [hs1] at hs2
    exact Option.some.inj hs2
  · intro now item dur
    obtain ⟨st2, hx, _, _, _⟩ := TreeCleanup.insert_spec hinv now item dur
    rw [hx]
    rfl

/-- Clock and state after a small tree trace, used to witness `C10`. -/
def c10res : FakeClock × TreeCleanup :=
  (runTreeState FakeClock.start TreeCleanup.empty
    [SOp.ins 0 5, SOp.qry 0]).getD (FakeClock.start, TreeCleanup.empty)

theorem claim_C10_witness :
    (∀ id e, c10res.2.expiration_times id = some e ↔
      ∃ b, alookup c10res.2.expiration_index e = some b ∧ id ∈ b) ∧
    (∀ id e1 e2 b1 b2, alookup c10res.2.expiration_index e1 = some b1 →
      id ∈ b1 → alookup c10res.2.expiration_index e2 = some b2 → id ∈ b2 →
      e1 = e2) ∧
    (∀ now item dur, (TreeCleanup.insert c10res.2 now item dur).isSome) :=
  claim_C10_tree_invariant [SOp.ins 0 5, SOp.qry 0] FakeClock.start
    c10res.1 c10res.2 (by rfl)
